import Mathlib

/-!
Verification development for `festivus.py`, a FUSE filesystem over a
Google Cloud Storage bucket with a Redis metadata cache.

The Python source is shallowly embedded:
* the Redis database is a `Store`: a map from key to either a hash
  (association list of field/value strings) or a set (list of members),
  mirroring Redis's one-data-type-per-key rule;
* the bulk indexer of `Festivus.__init__` (the `if init:` block) is
  `processBlob` / `runIndexer`, with `redis.hset` calls applied
  immediately and pipelined commands (`pipe.sadd` / `pipe.hset`)
  accumulated and applied at `pipe.execute()`;
* `getattr` is `getattr_` over the same `Store`;
* `open` / `read` / `flush` act on an `FSState` holding the blob bucket,
  the `temp_files` session map and a log of uploads.

Python exceptions are modeled by `PyError`; an operation that mutates
external state returns the state reached when the exception is raised,
since in the source the Redis/bucket mutations persist across a raise.
-/

namespace Festivus

/-- Exceptions that the modeled Python code can raise.
`enoent` stands for `FuseOSError(errno.ENOENT)`; `responseError` for
`redis.exceptions.ResponseError` (WRONGTYPE: key holds the other data
type); the rest are the built-in Python exception types. -/
inductive PyError
  | enoent
  | responseError
  | keyError
  | valueError
  | typeError
  | attributeError
  deriving DecidableEq, Repr

/-- `BLOCK_SIZE = 256` (line 20 of the source). -/
def BLOCK_SIZE : Nat := 256

/-- `DIR_METADATA = '__dir_metadata__'` (line 21 of the source). -/
def DIR_METADATA : String := "__dir_metadata__"

/-! ### Python string helpers

`str.split(sep)` and `os.path.split` are re-implemented over `List Char`
so that every definition is structurally recursive and kernel-reducible.
-/

/-- Python `s.split(sep)` for a one-character separator `c`: splits at every
occurrence, keeping empty pieces; `"".split('/') == ['']`. -/
def splitOnChar (c : Char) : List Char → List (List Char)
  | [] => [[]]
  | x :: rest =>
    let r := splitOnChar c rest
    if x = c then [] :: r
    else
      match r with
      | [] => [[x]]
      | h :: t => (x :: h) :: t

/-- `os.path.split(p)` (posixpath): the tail is everything after the last
`'/'`; the head is everything up to and including the last `'/'`, with
trailing slashes stripped unless the head consists only of slashes. -/
def osPathSplit (p : String) : String × String :=
  let cs := p.data
  let tail := (cs.reverse.takeWhile (fun c => c ≠ '/')).reverse
  let head := cs.take (cs.length - tail.length)
  let head :=
    if head.any (fun c => c ≠ '/') then (head.reverse.dropWhile (fun c => c = '/')).reverse
    else head
  (String.mk head, String.mk tail)

/-- `(part + '/' for part in path.split('/') if part != '')` (line 63). -/
def partsOf (path : String) : List String :=
  ((splitOnChar '/' path.data).map String.mk).filter (fun p => p ≠ "") |>.map (fun p => p ++ "/")

/-- Python `path[1:]`. -/
def strTail (p : String) : String := String.mk (p.data.drop 1)

/-- Does the key end with the path separator `'/'`?  (Used only in proofs:
the indexer's set keys all end with `'/'`, its hash keys never do.) -/
def endsSlash (k : String) : Bool := k.data.getLast? = some '/'

/-! ### The Redis store -/

/-- A Redis value: each key holds either a hash (field/value pairs, kept in
insertion order like Redis does) or a set (member list, insertion order). -/
inductive RVal
  | hash (entries : List (String × String))
  | rset (members : List String)
  deriving DecidableEq, Repr

/-- The Redis database: a key either is absent or holds one `RVal`. -/
def Store : Type := String → Option RVal

/-- The empty database. -/
def emptyStore : Store := fun _ => none

/-- Point update of a store. -/
def updateStore (s : Store) (k : String) (v : RVal) : Store :=
  fun q => if q = k then some v else s q

/-- Association-list lookup (Python `dict`/Redis hash field lookup). -/
def alookup {α : Type} : List (String × α) → String → Option α
  | [], _ => none
  | (g, w) :: t, f => if g = f then some w else alookup t f

/-- Association-list update-or-append: `HSET` on an existing field
overwrites in place, a new field is appended. -/
def aupsert {α : Type} : List (String × α) → String → α → List (String × α)
  | [], f, v => [(f, v)]
  | (g, w) :: t, f, v => if g = f then (g, v) :: t else (g, w) :: aupsert t f v

/-- `SADD`: append the member unless it is already present. -/
def saddList (l : List String) (m : String) : List String :=
  if l.contains m then l else l ++ [m]

/-! ### Store observations (used to state properties) -/

/-- The three possible shapes of a key. -/
inductive KObs
  | absent
  | khash
  | kset
  deriving DecidableEq, Repr

/-- Shape of key `k` in store `s`. -/
def kindObs (s : Store) (k : String) : KObs :=
  match s k with
  | none => .absent
  | some (.hash _) => .khash
  | some (.rset _) => .kset

/-- Value of field `f` of the hash at key `k` (`none` if `k` is not a hash
or lacks the field). -/
def fieldObs (s : Store) (k f : String) : Option String :=
  match s k with
  | some (.hash l) => alookup l f
  | _ => none

/-- Is `m` a member of the set at key `k`? -/
def setMemObs (s : Store) (k m : String) : Bool :=
  match s k with
  | some (.rset l) => l.contains m
  | _ => false

/-- Two stores are observationally equal: same key shapes, same hash
fields, same set members everywhere. -/
def ObsEq (a b : Store) : Prop :=
  (∀ k, kindObs a k = kindObs b k) ∧
    (∀ k f, fieldObs a k f = fieldObs b k f) ∧ ∀ k m, setMemObs a k m = setMemObs b k m

/-! ### Redis commands

`Cmd` is the command language the indexer issues: `hset` and `sadd`
writes, plus `checkHash`, which records an `HGETALL` read (it fails with
`ResponseError` on a set-typed key and has no other effect; the indexer
ignores the value it returns, see `hgetallBytes`). -/

inductive Cmd
  | checkHash (k : String)
  | hset (k f v : String)
  | sadd (k m : String)
  deriving DecidableEq, Repr

/-- Execute one command against the store, with Redis's WRONGTYPE errors:
`HSET` on a set key or `SADD` on a hash key raises `ResponseError`. -/
def applyCmd (s : Store) : Cmd → Except PyError Store
  | .checkHash k =>
    match s k with
    | some (.rset _) => .error .responseError
    | _ => .ok s
  | .hset k f v =>
    match s k with
    | some (.rset _) => .error .responseError
    | some (.hash l) => .ok (updateStore s k (.hash (aupsert l f v)))
    | none => .ok (updateStore s k (.hash [(f, v)]))
  | .sadd k m =>
    match s k with
    | some (.hash _) => .error .responseError
    | some (.rset l) => .ok (updateStore s k (.rset (saddList l m)))
    | none => .ok (updateStore s k (.rset [m]))

/-- Execute a command list in order, stopping at the first error and
returning the store reached at that point. -/
def execCmds (s : Store) : List Cmd → Store × Option PyError
  | [] => (s, none)
  | c :: rest =>
    match applyCmd s c with
    | .error e => (s, some e)
    | .ok t => execCmds t rest

theorem execCmds_append (s : Store) (A B : List Cmd) :
    execCmds s (A ++ B) =
      match execCmds s A with
      | (t, none) => execCmds t B
      | (t, some e) => (t, some e) := by
  induction A generalizing s with
  | nil => simp [execCmds]
  | cons c rest ih =>
    simp only [List.cons_append, execCmds]
    cases applyCmd s c with
    | error e => rfl
    | ok t => exact ih t

/-! ### The bulk indexer (`Festivus.__init__`, lines 55-104)

`redis.StrictRedis.from_url` is used without `decode_responses`, so
`redis.hgetall` returns a dict whose keys (and values) are `bytes`.
The source itself shows this: `getattr` decodes them explicitly at
lines 126/134/142.  The indexer loop, however, subscripts that dict with
the `str` key `'st_mtime'` (line 70), which can never match a `bytes`
key, so the lookup always raises `KeyError` and the `except KeyError:`
branch (create, lines 73-78) runs for every blob — the merge branch
(lines 79-87) is unreachable.  `PyStr` keeps the `str` / `bytes`
distinction so this is visible in the model. -/

/-- A Python string-like value: either `str` or `bytes`. -/
inductive PyStr
  | str (s : String)
  | bytes (s : String)
  deriving DecidableEq, Repr

/-- `redis.hgetall(k)` as the indexer sees it: raises `ResponseError` when
`k` holds a set; otherwise returns the hash as a dict keyed by `bytes`
(an absent key gives the empty dict).  Looking the result up with a
`str` key therefore always misses. -/
def hgetallBytes (s : Store) (k : String) : Except PyError (PyStr → Option String) :=
  match s k with
  | some (.rset _) => .error .responseError
  | some (.hash l) => .ok (fun q => match q with
      | .bytes b => alookup l b
      | .str _ => none)
  | none => .ok (fun _ => none)

/-- `self.redis.hset(k, f, v)` (immediate, not pipelined). -/
def redisHset (s : Store) (k f v : String) : Except PyError Store :=
  applyCmd s (.hset k f v)

/-- One object of `bucket.list_blobs()`: its name, `blob.size`, and
`blob.updated` / `blob.time_created` as seconds since the epoch. -/
structure Blob where
  name : String
  size : Nat
  updated : Nat
  timeCreated : Nat
  deriving DecidableEq, Repr

/-- `datetime.strftime('%s')`: the timestamp as a decimal string of epoch
seconds. -/
def epochStr (t : Nat) : String := toString t

/-- The `for part in parts:` loop (lines 66-89).  State threads through
the immediate `redis.hset` calls; the `pipe.sadd(base, part)` commands
are only queued, and are returned for execution at `pipe.execute()`.
Also returns the final `base` accumulator.

Inside the `try:` (line 70), `dir_stat['st_mtime']` misses whenever the
hash is missing the `bytes` key — and always misses here, see
`hgetallBytes` — raising `KeyError`, which selects the create branch.
If the lookup did succeed it would hand a `bytes` value to
`datetime.strptime`, a `TypeError` (and line 71 calls
`datetime.strftime` on a `str`, also a `TypeError`), which no `except`
catches. -/
def loopParts : Store → String → List String → Blob → (Store × String × List Cmd) × Option PyError
  | st, base, [], _ => ((st, base, []), none)
  | st, base, part :: rest, b =>
    let baseMetadata := base ++ DIR_METADATA
    match hgetallBytes st baseMetadata with
    | .error e => ((st, base, []), some e)
    | .ok dirStat =>
      match dirStat (.str "st_mtime") with
      | some _ => ((st, base, []), some .typeError)
      | none =>
        match redisHset st baseMetadata "st_mtime" (epochStr b.updated) with
        | .error e => ((st, base, []), some e)
        | .ok st1 =>
          match redisHset st1 baseMetadata "st_atime" (epochStr b.updated) with
          | .error e => ((st1, base, []), some e)
          | .ok st2 =>
            match redisHset st2 baseMetadata "st_ctime" (epochStr b.timeCreated) with
            | .error e => ((st2, base, []), some e)
            | .ok st3 =>
              match loopParts st3 (base ++ part) rest b with
              | ((st', base', pipe), none) => ((st', base', Cmd.sadd base part :: pipe), none)
              | ((st', base', _), some e) => ((st', base', []), some e)

/-- The pipelined leaf writes (lines 91, 95-99): `pipe.sadd(base, name)`
then the four `pipe.hset(name, ...)` on `name = base + name`. -/
def leafCmds (base name : String) (b : Blob) : List Cmd :=
  [Cmd.sadd base name,
   Cmd.hset (base ++ name) "st_mtime" (epochStr b.updated),
   Cmd.hset (base ++ name) "st_atime" (epochStr b.updated),
   Cmd.hset (base ++ name) "st_ctime" (epochStr b.timeCreated),
   Cmd.hset (base ++ name) "st_size" (toString b.size)]

/-- Processing of one blob (lines 59-104): run the part loop (immediate
hsets interleaved with queueing), then `pipe.execute()` runs the queued
commands in order.  `pipe.execute()` failures — `ConnectionError`
(caught, `sys.exit`) or `ResponseError` (uncaught) — both abort the
run; either way the immediate hsets already performed persist. -/
def processBlob (baseKey : String) (st : Store) (b : Blob) : Store × Option PyError :=
  let pn := osPathSplit b.name
  let parts := partsOf pn.1
  let base := baseKey ++ "/"
  match loopParts st base parts b with
  | ((st1, base1, pipe), none) => execCmds st1 (pipe ++ leafCmds base1 pn.2 b)
  | ((st1, _, _), some e) => (st1, some e)

/-- The whole `for blob in self.bucket.list_blobs():` loop: blobs are
processed in enumeration order; an exception aborts the run. -/
def runIndexer (baseKey : String) (s : Store) : List Blob → Store × Option PyError
  | [] => (s, none)
  | b :: rest =>
    match processBlob baseKey s b with
    | (t, none) => runIndexer baseKey t rest
    | (t, some e) => (t, some e)

/-! ### Command-list view of the indexer

For each blob the loop performs a state-independent command sequence
(the merge branch being unreachable, no read feeds back into a write).
`blobDirect` lists the immediate commands in order, `blobPipe` the
pipelined ones; `processBlob` is proved equal to executing
`blobDirect ++ blobPipe`. -/

/-- The immediate commands of the part loop: per part, the `HGETALL` read
and the three metadata `HSET`s, at successive `base` accumulators. -/
def directOf (base : String) (parts : List String) (b : Blob) : List Cmd :=
  match parts with
  | [] => []
  | part :: rest =>
    Cmd.checkHash (base ++ DIR_METADATA) ::
    Cmd.hset (base ++ DIR_METADATA) "st_mtime" (epochStr b.updated) ::
    Cmd.hset (base ++ DIR_METADATA) "st_atime" (epochStr b.updated) ::
    Cmd.hset (base ++ DIR_METADATA) "st_ctime" (epochStr b.timeCreated) ::
    directOf (base ++ part) rest b

/-- The queued `pipe.sadd(base, part)` commands of the loop, together with
the final `base` accumulator. -/
def pipeSadds (base : String) : List String → List Cmd × String
  | [] => ([], base)
  | part :: rest =>
    let r := pipeSadds (base ++ part) rest
    (Cmd.sadd base part :: r.1, r.2)

/-- All immediate commands of one blob. -/
def blobDirect (baseKey : String) (b : Blob) : List Cmd :=
  directOf (baseKey ++ "/") (partsOf (osPathSplit b.name).1) b

/-- All pipelined commands of one blob, in queue order. -/
def blobPipe (baseKey : String) (b : Blob) : List Cmd :=
  let pn := osPathSplit b.name
  let r := pipeSadds (baseKey ++ "/") (partsOf pn.1)
  r.1 ++ leafCmds r.2 pn.2 b

/-- The command stream of the whole indexer run. -/
def allCmds (baseKey : String) : List Blob → List Cmd
  | [] => []
  | b :: rest => (blobDirect baseKey b ++ blobPipe baseKey b) ++ allCmds baseKey rest

theorem checkHash_cases (s : Store) (k : String) :
    (hgetallBytes s k = .error .responseError ∧
      applyCmd s (.checkHash k) = .error .responseError) ∨
    ∃ d, hgetallBytes s k = .ok d ∧ applyCmd s (.checkHash k) = .ok s ∧
      d (.str "st_mtime") = none := by
  cases hk : s k with
  | none =>
    right
    refine ⟨fun _ => none, ?_, ?_, rfl⟩
    · simp [hgetallBytes, hk]
    · simp [applyCmd, hk]
  | some v =>
    cases v with
    | hash l =>
      right
      refine ⟨fun q => match q with
        | PyStr.bytes bb => alookup l bb
        | PyStr.str _ => none, ?_, ?_, rfl⟩
      · simp [hgetallBytes, hk]
      · simp [applyCmd, hk]
    | rset l =>
      left
      exact ⟨by simp [hgetallBytes, hk], by simp [applyCmd, hk]⟩

theorem loopParts_ok (b : Blob) :
    ∀ (parts : List String) (st t : Store) (base : String),
      execCmds st (directOf base parts b) = (t, none) →
      loopParts st base parts b =
        ((t, (pipeSadds base parts).2, (pipeSadds base parts).1), none) := by
  intro parts
  induction parts with
  | nil =>
    intro st t base h
    simp only [directOf, execCmds, Prod.mk.injEq] at h
    obtain ⟨rfl, -⟩ := h
    rfl
  | cons part rest ih =>
    intro st t base h
    rcases checkHash_cases st (base ++ DIR_METADATA) with ⟨hg, ha⟩ | ⟨d, hg, ha, hd⟩
    · simp only [directOf, execCmds, ha] at h
      exact Option.noConfusion (congrArg Prod.snd h)
    · simp only [directOf, execCmds, ha] at h
      simp only [loopParts, hg, hd, redisHset, pipeSadds]
      cases h1 : applyCmd st (Cmd.hset (base ++ DIR_METADATA) "st_mtime" (epochStr b.updated)) with
      | error e =>
        simp only [h1] at h
        exact Option.noConfusion (congrArg Prod.snd h)
      | ok st1 =>
        simp only [h1] at h ⊢
        cases h2 : applyCmd st1 (Cmd.hset (base ++ DIR_METADATA) "st_atime" (epochStr b.updated)) with
        | error e =>
          simp only [h2] at h
          exact Option.noConfusion (congrArg Prod.snd h)
        | ok st2 =>
          simp only [h2] at h ⊢
          cases h3 : applyCmd st2 (Cmd.hset (base ++ DIR_METADATA) "st_ctime" (epochStr b.timeCreated)) with
          | error e =>
            simp only [h3] at h
            exact Option.noConfusion (congrArg Prod.snd h)
          | ok st3 =>
            simp only [h3] at h ⊢
            rw [ih st3 t (base ++ part) h]

theorem loopParts_err (b : Blob) :
    ∀ (parts : List String) (st t : Store) (e : PyError) (base : String),
      execCmds st (directOf base parts b) = (t, some e) →
      ∃ base2, loopParts st base parts b = ((t, base2, []), some e) := by
  intro parts
  induction parts with
  | nil =>
    intro st t e base h
    simp only [directOf, execCmds, Prod.mk.injEq] at h
    exact Option.noConfusion h.2
  | cons part rest ih =>
    intro st t e base h
    rcases checkHash_cases st (base ++ DIR_METADATA) with ⟨hg, ha⟩ | ⟨d, hg, ha, hd⟩
    · simp only [directOf, execCmds, ha, Prod.mk.injEq] at h
      obtain ⟨rfl, h2⟩ := h
      obtain rfl : PyError.responseError = e := Option.some.inj h2
      exact ⟨base, by simp only [loopParts, hg]⟩
    · simp only [directOf, execCmds, ha] at h
      simp only [loopParts, hg, hd, redisHset]
      cases h1 : applyCmd st (Cmd.hset (base ++ DIR_METADATA) "st_mtime" (epochStr b.updated)) with
      | error e1 =>
        simp only [h1, Prod.mk.injEq] at h
        obtain ⟨rfl, h2⟩ := h
        obtain rfl : e1 = e := Option.some.inj h2
        exact ⟨base, rfl⟩
      | ok st1 =>
        simp only [h1] at h ⊢
        cases h2 : applyCmd st1 (Cmd.hset (base ++ DIR_METADATA) "st_atime" (epochStr b.updated)) with
        | error e1 =>
          simp only [h2, Prod.mk.injEq] at h
          obtain ⟨rfl, h3⟩ := h
          obtain rfl : e1 = e := Option.some.inj h3
          exact ⟨base, rfl⟩
        | ok st2 =>
          simp only [h2] at h ⊢
          cases h3 : applyCmd st2 (Cmd.hset (base ++ DIR_METADATA) "st_ctime" (epochStr b.timeCreated)) with
          | error e1 =>
            simp only [h3, Prod.mk.injEq] at h
            obtain ⟨rfl, h4⟩ := h
            obtain rfl : e1 = e := Option.some.inj h4
            exact ⟨base, rfl⟩
          | ok st3 =>
            simp only [h3] at h ⊢
            obtain ⟨base2, hrec⟩ := ih st3 t e (base ++ part) h
            rw [hrec]
            exact ⟨base2, rfl⟩

theorem processBlob_eq_exec (baseKey : String) (st : Store) (b : Blob) :
    processBlob baseKey st b = execCmds st (blobDirect baseKey b ++ blobPipe baseKey b) := by
  rw [execCmds_append]
  simp only [processBlob]
  cases hd : execCmds st (blobDirect baseKey b) with
  | mk t err =>
    cases err with
    | none =>
      have hd2 : execCmds st (directOf (baseKey ++ "/") (partsOf (osPathSplit b.name).1) b)
          = (t, none) := hd
      rw [loopParts_ok b _ st t _ hd2]
      rfl
    | some e =>
      have hd2 : execCmds st (directOf (baseKey ++ "/") (partsOf (osPathSplit b.name).1) b)
          = (t, some e) := hd
      obtain ⟨base2, hl⟩ := loopParts_err b _ st t e _ hd2
      rw [hl]

theorem runIndexer_eq_exec (baseKey : String) :
    ∀ (blobs : List Blob) (s : Store),
      runIndexer baseKey s blobs = execCmds s (allCmds baseKey blobs) := by
  intro blobs
  induction blobs with
  | nil => intro s; rfl
  | cons b rest ih =>
    intro s
    have hrw : execCmds s (allCmds baseKey (b :: rest)) =
        match execCmds s (blobDirect baseKey b ++ blobPipe baseKey b) with
        | (t, none) => execCmds t (allCmds baseKey rest)
        | (t, some e) => (t, some e) := by
      rw [allCmds, execCmds_append]
    rw [hrw]
    show (match processBlob baseKey s b with
      | (t, none) => runIndexer baseKey t rest
      | (t, some e) => (t, some e)) = _
    rw [processBlob_eq_exec]
    cases h : execCmds s (blobDirect baseKey b ++ blobPipe baseKey b) with
    | mk t err =>
      cases err with
      | none => exact ih t
      | some e => rfl

/-! ### Generic execution lemmas

Facts about `execCmds` used to settle the idempotence and
directory-invariant claims: set membership is never destroyed, a
successfully executed `sadd` establishes membership, and under the
key-shape discipline of the indexer (set keys end with `'/'`, hash keys
do not) a successful command list can be replayed. -/

theorem updateStore_self (s : Store) (k : String) (v : RVal) :
    updateStore s k v k = some v := by
  simp [updateStore]

theorem updateStore_ne (s : Store) (k q : String) (v : RVal) (h : q ≠ k) :
    updateStore s k v q = s q := by
  simp [updateStore, h]

theorem saddList_contains (l : List String) (m2 m : String)
    (h : l.contains m = true) : (saddList l m2).contains m = true := by
  unfold saddList
  split
  · exact h
  · exact List.elem_iff.mpr (List.mem_append_left _ (List.elem_iff.mp h))

theorem saddList_contains_self (l : List String) (m : String) :
    (saddList l m).contains m = true := by
  unfold saddList
  split
  · assumption
  · simp

theorem setMem_apply (s t : Store) (c : Cmd) (k m : String)
    (hok : applyCmd s c = .ok t) (h : setMemObs s k m = true) :
    setMemObs t k m = true := by
  cases c with
  | checkHash k2 =>
    simp only [applyCmd] at hok
    cases hs : s k2 with
    | none => rw [hs] at hok; cases hok; exact h
    | some v =>
      cases v with
      | hash l => rw [hs] at hok; cases hok; exact h
      | rset l => rw [hs] at hok; cases hok
  | hset k2 f v =>
    simp only [applyCmd] at hok
    cases hs : s k2 with
    | none =>
      rw [hs] at hok; cases hok
      by_cases hk : k = k2
      · subst hk; rw [setMemObs, hs] at h; cases h
      · rwa [setMemObs, updateStore_ne s k2 k _ hk]
    | some v2 =>
      cases v2 with
      | hash l =>
        rw [hs] at hok; cases hok
        by_cases hk : k = k2
        · subst hk; rw [setMemObs, hs] at h; cases h
        · rwa [setMemObs, updateStore_ne s k2 k _ hk]
      | rset l => rw [hs] at hok; cases hok
  | sadd k2 m2 =>
    simp only [applyCmd] at hok
    cases hs : s k2 with
    | none =>
      rw [hs] at hok; cases hok
      by_cases hk : k = k2
      · subst hk; rw [setMemObs, hs] at h; cases h
      · rwa [setMemObs, updateStore_ne s k2 k _ hk]
    | some v2 =>
      cases v2 with
      | hash l => rw [hs] at hok; cases hok
      | rset l =>
        rw [hs] at hok; cases hok
        by_cases hk : k = k2
        · subst hk
          rw [setMemObs, updateStore_self]
          rw [setMemObs, hs] at h
          exact saddList_contains l m2 m h
        · rwa [setMemObs, updateStore_ne s k2 k _ hk]

theorem setMem_exec (L : List Cmd) :
    ∀ (s s2 : Store) (k m : String), execCmds s L = (s2, none) →
      setMemObs s k m = true → setMemObs s2 k m = true := by
  induction L with
  | nil =>
    intro s s2 k m hrun h
    simp only [execCmds, Prod.mk.injEq] at hrun
    rw [← hrun.1]; exact h
  | cons c rest ih =>
    intro s s2 k m hrun h
    simp only [execCmds] at hrun
    cases hc : applyCmd s c with
    | error e =>
      rw [hc] at hrun
      exact Option.noConfusion (congrArg Prod.snd hrun)
    | ok t =>
      rw [hc] at hrun
      exact ih t s2 k m hrun (setMem_apply s t c k m hc h)

theorem sadd_establish (L : List Cmd) :
    ∀ (s s2 : Store) (k m : String), execCmds s L = (s2, none) →
      Cmd.sadd k m ∈ L → setMemObs s2 k m = true := by
  induction L with
  | nil => intro s s2 k m _ hmem; cases hmem
  | cons c rest ih =>
    intro s s2 k m hrun hmem
    simp only [execCmds] at hrun
    cases hc : applyCmd s c with
    | error e =>
      rw [hc] at hrun
      exact Option.noConfusion (congrArg Prod.snd hrun)
    | ok t =>
      rw [hc] at hrun
      rcases List.mem_cons.mp hmem with heq | hmem2
      · subst heq
        refine setMem_exec rest t s2 k m hrun ?_
        simp only [applyCmd] at hc
        cases hs : s k with
        | none =>
          rw [hs] at hc; cases hc
          rw [setMemObs, updateStore_self]
          simp
        | some v =>
          cases v with
          | hash l => rw [hs] at hc; cases hc
          | rset l =>
            rw [hs] at hc; cases hc
            rw [setMemObs, updateStore_self]
            exact saddList_contains_self l m
      · exact ih t s2 k m hrun hmem2

theorem alookup_aupsert_self {α : Type} (l : List (String × α)) (f : String) (v : α) :
    alookup (aupsert l f v) f = some v := by
  induction l with
  | nil => simp [alookup, aupsert]
  | cons p t ih =>
    by_cases h : p.1 = f
    · simp [alookup, aupsert, h]
    · simp [alookup, aupsert, h, ih]

theorem alookup_aupsert_ne {α : Type} (l : List (String × α)) (f g : String) (v : α)
    (h : g ≠ f) : alookup (aupsert l f v) g = alookup l g := by
  induction l with
  | nil => simp [alookup, aupsert, Ne.symm h]
  | cons p t ih =>
    by_cases hp : p.1 = f
    · simp only [aupsert, hp, if_pos rfl, alookup]
      have : ¬(f = g) := fun hh => h hh.symm
      simp [this, hp]
    · simp only [aupsert, if_neg hp, alookup]
      by_cases hg : p.1 = g
      · simp [hg]
      · simp [hg, ih]

theorem saddList_contains_eq (l : List String) (m m2 : String) :
    (saddList l m).contains m2 = (l.contains m2 || m2 == m) := by
  unfold saddList
  by_cases hm2 : m2 = m
  · subst hm2
    split
    · simp_all
    · simp [saddList_contains_self, List.elem_iff]
  · have hbeq : (m2 == m) = false := by simp [hm2]
    rw [hbeq, Bool.or_false]
    split
    · rfl
    · cases hc : l.contains m2 with
      | true => exact List.elem_iff.mpr (List.mem_append_left _ (List.elem_iff.mp hc))
      | false =>
        rw [Bool.eq_false_iff]
        intro habs
        rcases List.mem_append.mp (List.elem_iff.mp habs) with hh | hh
        · have hcc : l.contains m2 = true := List.elem_iff.mpr hh
          rw [hcc] at hc
          cases hc
        · exact hm2 (List.mem_singleton.mp hh)

theorem kind_khash_shape (u : Store) (k : String) (h : kindObs u k = .khash) :
    ∃ l, u k = some (.hash l) := by
  unfold kindObs at h
  cases hu : u k with
  | none => rw [hu] at h; cases h
  | some v =>
    cases v with
    | hash l => exact ⟨l, rfl⟩
    | rset l => rw [hu] at h; cases h

theorem kind_kset_shape (u : Store) (k : String) (h : kindObs u k = .kset) :
    ∃ l, u k = some (.rset l) := by
  unfold kindObs at h
  cases hu : u k with
  | none => rw [hu] at h; cases h
  | some v =>
    cases v with
    | hash l => rw [hu] at h; cases h
    | rset l => exact ⟨l, rfl⟩

theorem kind_khash_setMem (u : Store) (k m : String) (h : kindObs u k = .khash) :
    setMemObs u k m = false := by
  obtain ⟨l, hl⟩ := kind_khash_shape u k h
  simp [setMemObs, hl]

theorem kind_kset_field (u : Store) (k f : String) (h : kindObs u k = .kset) :
    fieldObs u k f = none := by
  obtain ⟨l, hl⟩ := kind_kset_shape u k h
  simp [fieldObs, hl]

/-- Which single key does a command write? (`checkHash` writes none.) -/
def cmdWritesKey : Cmd → String → Prop
  | .hset k _ _, q => k = q
  | .sadd k _, q => k = q
  | .checkHash _, _ => False

/-- Does some command of `L` write key `k`? -/
def writesKey (L : List Cmd) (k : String) : Prop := ∃ c ∈ L, cmdWritesKey c k

/-- Does `L` contain an `hset` of field `f` at key `k`? -/
def fieldWritten (L : List Cmd) (k f : String) : Prop := ∃ v, Cmd.hset k f v ∈ L

/-- The indexer's key-shape discipline: reads and hash writes go to keys
not ending in `'/'`; set writes go to keys ending in `'/'`. -/
def shapeOKc : Cmd → Bool
  | .checkHash k => !(endsSlash k)
  | .hset k _ _ => !(endsSlash k)
  | .sadd k _ => endsSlash k

/-- Every command of the list respects the key-shape discipline. -/
def ShapeOK (L : List Cmd) : Prop := ∀ c ∈ L, shapeOKc c = true

/-- The shape a key is forced into once written under the discipline. -/
def flavorK (k : String) : KObs := if endsSlash k then .kset else .khash

theorem apply_kind_other (s t : Store) (c : Cmd) (k : String)
    (hok : applyCmd s c = .ok t) (hw : ¬cmdWritesKey c k) : kindObs t k = kindObs s k := by
  cases c with
  | checkHash k2 =>
    simp only [applyCmd] at hok
    cases hs : s k2 with
    | none => rw [hs] at hok; cases hok; rfl
    | some v =>
      cases v with
      | hash l => rw [hs] at hok; cases hok; rfl
      | rset l => rw [hs] at hok; cases hok
  | hset k2 f v =>
    have hk : k2 ≠ k := hw
    simp only [applyCmd] at hok
    cases hs : s k2 with
    | none =>
      rw [hs] at hok; cases hok
      rw [kindObs, kindObs, updateStore_ne s k2 k _ (fun hh => hk hh.symm)]
    | some v2 =>
      cases v2 with
      | hash l =>
        rw [hs] at hok; cases hok
        rw [kindObs, kindObs, updateStore_ne s k2 k _ (fun hh => hk hh.symm)]
      | rset l => rw [hs] at hok; cases hok
  | sadd k2 m =>
    have hk : k2 ≠ k := hw
    simp only [applyCmd] at hok
    cases hs : s k2 with
    | none =>
      rw [hs] at hok; cases hok
      rw [kindObs, kindObs, updateStore_ne s k2 k _ (fun hh => hk hh.symm)]
    | some v2 =>
      cases v2 with
      | hash l => rw [hs] at hok; cases hok
      | rset l =>
        rw [hs] at hok; cases hok
        rw [kindObs, kindObs, updateStore_ne s k2 k _ (fun hh => hk hh.symm)]

theorem apply_kind_hset (s t : Store) (k f v : String)
    (hok : applyCmd s (.hset k f v) = .ok t) : kindObs t k = .khash := by
  simp only [applyCmd] at hok
  cases hs : s k with
  | none => rw [hs] at hok; cases hok; rw [kindObs, updateStore_self]
  | some v2 =>
    cases v2 with
    | hash l => rw [hs] at hok; cases hok; rw [kindObs, updateStore_self]
    | rset l => rw [hs] at hok; cases hok

theorem apply_kind_sadd (s t : Store) (k m : String)
    (hok : applyCmd s (.sadd k m) = .ok t) : kindObs t k = .kset := by
  simp only [applyCmd] at hok
  cases hs : s k with
  | none => rw [hs] at hok; cases hok; rw [kindObs, updateStore_self]
  | some v2 =>
    cases v2 with
    | hash l => rw [hs] at hok; cases hok
    | rset l => rw [hs] at hok; cases hok; rw [kindObs, updateStore_self]

theorem apply_field_other (s t : Store) (c : Cmd) (k f : String)
    (hok : applyCmd s c = .ok t) (hw : ∀ v, c ≠ .hset k f v) :
    fieldObs t k f = fieldObs s k f := by
  cases c with
  | checkHash k2 =>
    simp only [applyCmd] at hok
    cases hs : s k2 with
    | none => rw [hs] at hok; cases hok; rfl
    | some v =>
      cases v with
      | hash l => rw [hs] at hok; cases hok; rfl
      | rset l => rw [hs] at hok; cases hok
  | hset k2 f2 v =>
    simp only [applyCmd] at hok
    by_cases hk : k2 = k
    · subst hk
      have hf : f2 ≠ f := by
        intro hh
        exact hw v (by rw [hh])
      cases hs : s k2 with
      | none =>
        rw [hs] at hok; cases hok
        rw [fieldObs, fieldObs, updateStore_self, hs]
        simp [alookup, hf]
      | some v2 =>
        cases v2 with
        | hash l =>
          rw [hs] at hok; cases hok
          rw [fieldObs, fieldObs, updateStore_self, hs]
          exact alookup_aupsert_ne l f2 f v (Ne.symm hf)
        | rset l => rw [hs] at hok; cases hok
    · cases hs : s k2 with
      | none =>
        rw [hs] at hok; cases hok
        rw [fieldObs, fieldObs, updateStore_ne s k2 k _ (fun hh => hk hh.symm)]
      | some v2 =>
        cases v2 with
        | hash l =>
          rw [hs] at hok; cases hok
          rw [fieldObs, fieldObs, updateStore_ne s k2 k _ (fun hh => hk hh.symm)]
        | rset l => rw [hs] at hok; cases hok
  | sadd k2 m =>
    simp only [applyCmd] at hok
    by_cases hk : k2 = k
    · subst hk
      cases hs : s k2 with
      | none =>
        rw [hs] at hok; cases hok
        rw [fieldObs, fieldObs, updateStore_self, hs]
      | some v2 =>
        cases v2 with
        | hash l => rw [hs] at hok; cases hok
        | rset l =>
          rw [hs] at hok; cases hok
          rw [fieldObs, fieldObs, updateStore_self, hs]
    · cases hs : s k2 with
      | none =>
        rw [hs] at hok; cases hok
        rw [fieldObs, fieldObs, updateStore_ne s k2 k _ (fun hh => hk hh.symm)]
      | some v2 =>
        cases v2 with
        | hash l => rw [hs] at hok; cases hok
        | rset l =>
          rw [hs] at hok; cases hok
          rw [fieldObs, fieldObs, updateStore_ne s k2 k _ (fun hh => hk hh.symm)]

theorem fieldObs_apply_hset_self (s t : Store) (k f v : String)
    (hok : applyCmd s (.hset k f v) = .ok t) : fieldObs t k f = some v := by
  simp only [applyCmd] at hok
  cases hs : s k with
  | none =>
    rw [hs] at hok; cases hok
    rw [fieldObs, updateStore_self]
    simp [alookup]
  | some v2 =>
    cases v2 with
    | hash l =>
      rw [hs] at hok; cases hok
      rw [fieldObs, updateStore_self]
      exact alookup_aupsert_self l f v
    | rset l => rw [hs] at hok; cases hok

theorem apply_setMem_other (s t : Store) (c : Cmd) (k m : String)
    (hok : applyCmd s c = .ok t) (hw : ¬cmdWritesKey c k) :
    setMemObs t k m = setMemObs s k m := by
  cases c with
  | checkHash k2 =>
    simp only [applyCmd] at hok
    cases hs : s k2 with
    | none => rw [hs] at hok; cases hok; rfl
    | some v =>
      cases v with
      | hash l => rw [hs] at hok; cases hok; rfl
      | rset l => rw [hs] at hok; cases hok
  | hset k2 f2 v =>
    have hk : k2 ≠ k := hw
    simp only [applyCmd] at hok
    cases hs : s k2 with
    | none =>
      rw [hs] at hok; cases hok
      rw [setMemObs, setMemObs, updateStore_ne s k2 k _ (fun hh => hk hh.symm)]
    | some v2 =>
      cases v2 with
      | hash l =>
        rw [hs] at hok; cases hok
        rw [setMemObs, setMemObs, updateStore_ne s k2 k _ (fun hh => hk hh.symm)]
      | rset l => rw [hs] at hok; cases hok
  | sadd k2 m2 =>
    have hk : k2 ≠ k := hw
    simp only [applyCmd] at hok
    cases hs : s k2 with
    | none =>
      rw [hs] at hok; cases hok
      rw [setMemObs, setMemObs, updateStore_ne s k2 k _ (fun hh => hk hh.symm)]
    | some v2 =>
      cases v2 with
      | hash l => rw [hs] at hok; cases hok
      | rset l =>
        rw [hs] at hok; cases hok
        rw [setMemObs, setMemObs, updateStore_ne s k2 k _ (fun hh => hk hh.symm)]

theorem apply_setMem_sadd (s t : Store) (k m m2 : String)
    (hok : applyCmd s (.sadd k m) = .ok t) :
    setMemObs t k m2 = (setMemObs s k m2 || m2 == m) := by
  simp only [applyCmd] at hok
  cases hs : s k with
  | none =>
    rw [hs] at hok; cases hok
    rw [setMemObs, setMemObs, updateStore_self, hs]
    by_cases hm : m2 = m <;> simp [hm]
  | some v2 =>
    cases v2 with
    | hash l => rw [hs] at hok; cases hok
    | rset l =>
      rw [hs] at hok; cases hok
      rw [setMemObs, setMemObs, updateStore_self, hs]
      exact saddList_contains_eq l m m2

theorem kinds_after_nw (L : List Cmd) :
    ∀ (s s2 : Store) (k : String), execCmds s L = (s2, none) → ¬writesKey L k →
      kindObs s2 k = kindObs s k := by
  induction L with
  | nil =>
    intro s s2 k hrun _
    simp only [execCmds, Prod.mk.injEq] at hrun
    rw [← hrun.1]
  | cons c rest ih =>
    intro s s2 k hrun hw
    simp only [execCmds] at hrun
    cases hc : applyCmd s c with
    | error e =>
      rw [hc] at hrun
      exact Option.noConfusion (congrArg Prod.snd hrun)
    | ok t =>
      rw [hc] at hrun
      have hwc : ¬cmdWritesKey c k := fun hh => hw ⟨c, List.mem_cons_self c rest, hh⟩
      have hwr : ¬writesKey rest k := fun ⟨c2, hm, hh⟩ =>
        hw ⟨c2, List.mem_cons_of_mem c hm, hh⟩
      rw [ih t s2 k hrun hwr]
      exact apply_kind_other s t c k hc hwc

theorem kinds_after_w (L : List Cmd) :
    ∀ (s s2 : Store) (k : String), ShapeOK L → execCmds s L = (s2, none) → writesKey L k →
      kindObs s2 k = flavorK k := by
  induction L with
  | nil =>
    intro s s2 k _ _ hw
    obtain ⟨c, hm, -⟩ := hw
    cases hm
  | cons c rest ih =>
    intro s s2 k hshape hrun hw
    simp only [execCmds] at hrun
    cases hc : applyCmd s c with
    | error e =>
      rw [hc] at hrun
      exact Option.noConfusion (congrArg Prod.snd hrun)
    | ok t =>
      rw [hc] at hrun
      have hshape2 : ShapeOK rest := fun c2 hm => hshape c2 (List.mem_cons_of_mem c hm)
      by_cases hwr : writesKey rest k
      · exact ih t s2 k hshape2 hrun hwr
      · rw [kinds_after_nw rest t s2 k hrun hwr]
        obtain ⟨c2, hm, hwc⟩ := hw
        rcases List.mem_cons.mp hm with rfl | hm2
        · cases c2 with
          | checkHash k2 => cases hwc
          | hset k2 f v =>
            obtain rfl : k2 = k := hwc
            have hsh := hshape _ (List.mem_cons_self _ rest)
            simp only [shapeOKc, Bool.not_eq_true'] at hsh
            rw [apply_kind_hset s t k2 f v hc, flavorK, hsh]
            rfl
          | sadd k2 m =>
            obtain rfl : k2 = k := hwc
            have hsh := hshape _ (List.mem_cons_self _ rest)
            simp only [shapeOKc] at hsh
            rw [apply_kind_sadd s t k2 m hc, flavorK, hsh]
            rfl
        · exact absurd ⟨c2, hm2, hwc⟩ hwr

theorem field_preserve (L : List Cmd) :
    ∀ (s s2 : Store) (k f : String), execCmds s L = (s2, none) → ¬fieldWritten L k f →
      fieldObs s2 k f = fieldObs s k f := by
  induction L with
  | nil =>
    intro s s2 k f hrun _
    simp only [execCmds, Prod.mk.injEq] at hrun
    rw [← hrun.1]
  | cons c rest ih =>
    intro s s2 k f hrun hw
    simp only [execCmds] at hrun
    cases hc : applyCmd s c with
    | error e =>
      rw [hc] at hrun
      exact Option.noConfusion (congrArg Prod.snd hrun)
    | ok t =>
      rw [hc] at hrun
      have hwc : ∀ v, c ≠ .hset k f v := by
        intro v hh
        exact hw ⟨v, hh ▸ List.mem_cons_self c rest⟩
      have hwr : ¬fieldWritten rest k f := fun ⟨v, hm⟩ =>
        hw ⟨v, List.mem_cons_of_mem c hm⟩
      rw [ih t s2 k f hrun hwr]
      exact apply_field_other s t c k f hc hwc

theorem checkHash_ok_shape (s t : Store) (k : String)
    (hok : applyCmd s (.checkHash k) = .ok t) : t = s ∧ kindObs s k ≠ .kset := by
  simp only [applyCmd] at hok
  cases hs : s k with
  | none =>
    rw [hs] at hok; cases hok
    exact ⟨rfl, by simp [kindObs, hs]⟩
  | some v =>
    cases v with
    | hash l =>
      rw [hs] at hok; cases hok
      exact ⟨rfl, by simp [kindObs, hs]⟩
    | rset l => rw [hs] at hok; cases hok

theorem checkHash_ok_of_kind (t : Store) (k : String) (h : kindObs t k ≠ .kset) :
    applyCmd t (.checkHash k) = .ok t := by
  simp only [applyCmd]
  cases ht : t k with
  | none => rfl
  | some v =>
    cases v with
    | hash l => rfl
    | rset l => exact absurd (by simp [kindObs, ht]) h

theorem hset_ok_of_kind (t : Store) (k f v : String) (h : kindObs t k ≠ .kset) :
    ∃ t2, applyCmd t (.hset k f v) = .ok t2 := by
  simp only [applyCmd]
  cases ht : t k with
  | none => exact ⟨_, rfl⟩
  | some v2 =>
    cases v2 with
    | hash l => exact ⟨_, rfl⟩
    | rset l => exact absurd (by simp [kindObs, ht]) h

theorem sadd_ok_of_kind (t : Store) (k m : String) (h : kindObs t k ≠ .khash) :
    ∃ t2, applyCmd t (.sadd k m) = .ok t2 := by
  simp only [applyCmd]
  cases ht : t k with
  | none => exact ⟨_, rfl⟩
  | some v2 =>
    cases v2 with
    | hash l => exact absurd (by simp [kindObs, ht]) h
    | rset l => exact ⟨_, rfl⟩

/-- Replaying a successfully executed, shape-disciplined command list from
its own result succeeds and reproduces that result (up to observations).
The third invariant allows the replay start `t` to disagree with the
final state `s2` on hash fields that the list overwrites anyway. -/
theorem exec_twice (L : List Cmd) :
    ∀ (s t s2 : Store), ShapeOK L → execCmds s L = (s2, none) →
      (∀ k, kindObs t k = kindObs s2 k) →
      (∀ k m, setMemObs t k m = setMemObs s2 k m) →
      (∀ k f, fieldObs t k f = fieldObs s2 k f ∨ fieldWritten L k f) →
      (execCmds t L).2 = none ∧ ObsEq (execCmds t L).1 s2 := by
  induction L with
  | nil =>
    intro s t s2 _ hrun hkind hsetm hfield
    simp only [execCmds, Prod.mk.injEq] at hrun
    obtain ⟨rfl, -⟩ := hrun
    refine ⟨rfl, hkind, ?_, hsetm⟩
    intro k f
    rcases hfield k f with h | ⟨v, hm⟩
    · exact h
    · cases hm
  | cons c rest ih =>
    intro s t s2 hshape hrun hkind hsetm hfield
    simp only [execCmds] at hrun ⊢
    cases hc : applyCmd s c with
    | error e =>
      rw [hc] at hrun
      exact Option.noConfusion (congrArg Prod.snd hrun)
    | ok sa =>
      rw [hc] at hrun
      have hshape2 : ShapeOK rest := fun c2 hm => hshape c2 (List.mem_cons_of_mem c hm)
      cases c with
      | checkHash k =>
        obtain ⟨heq, hks⟩ := checkHash_ok_shape s sa k hc
        rw [heq] at hrun
        have hsh := hshape _ (List.mem_cons_self _ _)
        simp only [shapeOKc, Bool.not_eq_true'] at hsh
        have hkt : kindObs t k ≠ .kset := by
          rw [hkind k]
          by_cases hwr : writesKey rest k
          · rw [kinds_after_w rest s s2 k hshape2 hrun hwr]
            simp [flavorK, hsh]
          · rw [kinds_after_nw rest s s2 k hrun hwr]
            exact hks
        rw [checkHash_ok_of_kind t k hkt]
        refine ih s t s2 hshape2 hrun hkind hsetm ?_
        intro k2 f2
        rcases hfield k2 f2 with h | ⟨v, hm⟩
        · exact Or.inl h
        · rcases List.mem_cons.mp hm with heq | hm2
          · exact Cmd.noConfusion heq
          · exact Or.inr ⟨v, hm2⟩
      | hset k f v =>
        have hsh := hshape _ (List.mem_cons_self _ _)
        simp only [shapeOKc, Bool.not_eq_true'] at hsh
        have hflav : flavorK k = .khash := by simp [flavorK, hsh]
        have hs2k : kindObs s2 k = .khash := by
          by_cases hwr : writesKey rest k
          · rw [kinds_after_w rest sa s2 k hshape2 hrun hwr, hflav]
          · rw [kinds_after_nw rest sa s2 k hrun hwr]
            exact apply_kind_hset s sa k f v hc
        have hkt : kindObs t k = .khash := by rw [hkind k, hs2k]
        obtain ⟨ta, hta⟩ := hset_ok_of_kind t k f v (by simp [hkt])
        rw [hta]
        refine ih sa ta s2 hshape2 hrun ?_ ?_ ?_
        · intro k2
          by_cases hk2 : k = k2
          · subst hk2
            rw [apply_kind_hset t ta k f v hta, hs2k]
          · rw [apply_kind_other t ta _ k2 hta hk2, hkind k2]
        · intro k2 m2
          by_cases hk2 : k = k2
          · subst hk2
            rw [kind_khash_setMem _ _ m2 (apply_kind_hset t ta k f v hta),
              kind_khash_setMem _ _ m2 hs2k]
          · rw [apply_setMem_other t ta _ k2 m2 hta hk2]
            exact hsetm k2 m2
        · intro k2 f2
          by_cases hkf : k = k2 ∧ f = f2
          · obtain ⟨rfl, rfl⟩ := hkf
            by_cases hfw : fieldWritten rest k f
            · exact Or.inr hfw
            · left
              rw [fieldObs_apply_hset_self t ta k f v hta,
                field_preserve rest sa s2 k f hrun hfw,
                fieldObs_apply_hset_self s sa k f v hc]
          · have hne : ∀ v2, Cmd.hset k f v ≠ Cmd.hset k2 f2 v2 := by
              intro v2 hh
              injection hh with h1 h2 h3
              exact hkf ⟨h1, h2⟩
            rw [apply_field_other t ta _ k2 f2 hta hne]
            rcases hfield k2 f2 with h | ⟨v2, hm⟩
            · exact Or.inl h
            · rcases List.mem_cons.mp hm with heq | hm2
              · injection heq with h1 h2 h3
                exact absurd ⟨h1.symm, h2.symm⟩ hkf
              · exact Or.inr ⟨v2, hm2⟩
      | sadd k m =>
        have hsh := hshape _ (List.mem_cons_self _ _)
        simp only [shapeOKc] at hsh
        have hflav : flavorK k = .kset := by simp [flavorK, hsh]
        have hs2k : kindObs s2 k = .kset := by
          by_cases hwr : writesKey rest k
          · rw [kinds_after_w rest sa s2 k hshape2 hrun hwr, hflav]
          · rw [kinds_after_nw rest sa s2 k hrun hwr]
            exact apply_kind_sadd s sa k m hc
        have hkt : kindObs t k = .kset := by rw [hkind k, hs2k]
        obtain ⟨ta, hta⟩ := sadd_ok_of_kind t k m (by simp [hkt])
        rw [hta]
        have hmsa : setMemObs sa k m = true := by
          simp only [applyCmd] at hc
          cases hs : s k with
          | none =>
            rw [hs] at hc; cases hc
            rw [setMemObs, updateStore_self]
            simp
          | some v2 =>
            cases v2 with
            | hash l => rw [hs] at hc; cases hc
            | rset l =>
              rw [hs] at hc; cases hc
              rw [setMemObs, updateStore_self]
              exact saddList_contains_self l m
        have hms2 : setMemObs s2 k m = true := setMem_exec rest sa s2 k m hrun hmsa
        refine ih sa ta s2 hshape2 hrun ?_ ?_ ?_
        · intro k2
          by_cases hk2 : k = k2
          · subst hk2
            rw [apply_kind_sadd t ta k m hta, hs2k]
          · rw [apply_kind_other t ta _ k2 hta hk2, hkind k2]
        · intro k2 m2
          by_cases hk2 : k = k2
          · subst hk2
            rw [apply_setMem_sadd t ta k m m2 hta, hsetm k m2]
            by_cases hm2 : m2 = m
            · subst hm2
              rw [hms2]
              simp
            · simp [hm2]
          · rw [apply_setMem_other t ta _ k2 m2 hta hk2]
            exact hsetm k2 m2
        · intro k2 f2
          have hne : ∀ v2, Cmd.sadd k m ≠ Cmd.hset k2 f2 v2 := fun v2 hh => Cmd.noConfusion hh
          rw [apply_field_other t ta _ k2 f2 hta hne]
          rcases hfield k2 f2 with h | ⟨v2, hm⟩
          · exact Or.inl h
          · rcases List.mem_cons.mp hm with heq | hm2
            · exact Cmd.noConfusion heq
            · exact Or.inr ⟨v2, hm2⟩

/-! ### Key shapes of the indexer's command stream

Set keys written by the indexer always end with `'/'` (the `base`
accumulator starts at `base_key + '/'` and grows by parts ending in
`'/'`); hash keys never do (`DIR_METADATA` ends in `'_'`, and the leaf
name is nonempty without `'/'` for a well-formed blob name). -/

theorem string_data_append (a b : String) : (a ++ b).data = a.data ++ b.data := rfl

theorem endsSlash_append (a b : String) (h : b.data ≠ []) :
    endsSlash (a ++ b) = endsSlash b := by
  unfold endsSlash
  rw [string_data_append, List.getLast?_append_of_ne_nil _ h]

theorem endsSlash_marker (a : String) : endsSlash (a ++ DIR_METADATA) = false := by
  rw [endsSlash_append a DIR_METADATA (by decide)]
  decide

theorem endsSlash_slash (a : String) : endsSlash (a ++ "/") = true := by
  rw [endsSlash_append a "/" (by decide)]
  decide

theorem endsSlash_ne_nil (q : String) (h : endsSlash q = true) : q.data ≠ [] := by
  intro habs
  unfold endsSlash at h
  rw [habs] at h
  simp at h

/-- A well-formed object name: nonempty and not ending in `'/'`.  A blob
violating this makes every indexer run fail (its leaf `hset` key
collides with the set key just written by `sadd`), so the successful
runs the idempotence claim quantifies over only involve such names. -/
def WFblob (b : Blob) : Bool := !b.name.data.isEmpty && !endsSlash b.name

theorem osPathSplit_tail_facts (p : String) (hne : p.data ≠ []) (hsl : endsSlash p = false) :
    (osPathSplit p).2.data ≠ [] ∧ (osPathSplit p).2.data.getLast? ≠ some '/' := by
  have htail : (osPathSplit p).2.data = (p.data.reverse.takeWhile (fun c => c ≠ '/')).reverse := rfl
  rw [htail]
  constructor
  · intro habs
    have h2 : p.data.reverse.takeWhile (fun c => c ≠ '/') = [] := by
      have := congrArg List.reverse habs
      simpa using this
    cases hrev : p.data.reverse with
    | nil => exact hne (by simpa using congrArg List.reverse hrev)
    | cons x xs =>
      have hx : p.data.getLast? = some x := by
        rw [← List.head?_reverse, hrev]
        rfl
      have hxslash : x ≠ '/' := by
        intro hh
        rw [hh] at hx
        unfold endsSlash at hsl
        rw [hx] at hsl
        simp at hsl
      rw [hrev, List.takeWhile_cons] at h2
      simp [hxslash] at h2
  · intro habs
    have hmem : '/' ∈ p.data.reverse.takeWhile (fun c => c ≠ '/') := by
      have hh : (p.data.reverse.takeWhile (fun c => c ≠ '/')).reverse.getLast?
          = (p.data.reverse.takeWhile (fun c => c ≠ '/')).head? := by
        rw [← List.head?_reverse, List.reverse_reverse]
      rw [hh] at habs
      cases hl : p.data.reverse.takeWhile (fun c => c ≠ '/') with
      | nil => rw [hl] at habs; cases habs
      | cons y ys =>
        rw [hl] at habs
        injection habs with hy
        rw [hy]
        exact List.mem_cons_self _ _
    have := List.mem_takeWhile_imp hmem
    simp at this

theorem partsOf_endsSlash (path : String) : ∀ q ∈ partsOf path, endsSlash q = true := by
  intro q hq
  unfold partsOf at hq
  simp only [List.mem_map] at hq
  obtain ⟨p, hp, rfl⟩ := hq
  exact endsSlash_slash p

theorem directOf_shape (b : Blob) :
    ∀ (parts : List String) (base : String), ∀ c ∈ directOf base parts b,
      shapeOKc c = true := by
  intro parts
  induction parts with
  | nil => intro base c hc; cases hc
  | cons part rest ih =>
    intro base c hc
    simp only [directOf, List.mem_cons] at hc
    rcases hc with rfl | rfl | rfl | rfl | hmem
    · simp [shapeOKc, endsSlash_marker]
    · simp [shapeOKc, endsSlash_marker]
    · simp [shapeOKc, endsSlash_marker]
    · simp [shapeOKc, endsSlash_marker]
    · exact ih (base ++ part) c hmem

theorem pipeSadds_facts :
    ∀ (parts : List String) (base : String),
      (∀ q ∈ parts, endsSlash q = true) → endsSlash base = true →
      (∀ c ∈ (pipeSadds base parts).1, shapeOKc c = true) ∧
        endsSlash (pipeSadds base parts).2 = true := by
  intro parts
  induction parts with
  | nil =>
    intro base _ hb
    exact ⟨fun c hc => absurd hc (List.not_mem_nil c), hb⟩
  | cons part rest ih =>
    intro base hq hb
    have hpart : endsSlash part = true := hq part (List.mem_cons_self _ _)
    have hbase2 : endsSlash (base ++ part) = true := by
      rw [endsSlash_append base part (endsSlash_ne_nil part hpart)]
      exact hpart
    obtain ⟨hcs, hfin⟩ := ih (base ++ part)
      (fun q hmem => hq q (List.mem_cons_of_mem part hmem)) hbase2
    refine ⟨?_, ?_⟩
    · intro c hc
      simp only [pipeSadds, List.mem_cons] at hc
      rcases hc with rfl | hmem
      · simp [shapeOKc, hb]
      · exact hcs c hmem
    · simpa only [pipeSadds] using hfin

theorem leafCmds_shape (fin name2 : String) (b : Blob) (hfin : endsSlash fin = true)
    (hn1 : name2.data ≠ []) (hn2 : name2.data.getLast? ≠ some '/') :
    ∀ c ∈ leafCmds fin name2 b, shapeOKc c = true := by
  have hleaf : endsSlash (fin ++ name2) = false := by
    rw [endsSlash_append fin name2 hn1]
    unfold endsSlash
    simpa using hn2
  intro c hc
  simp only [leafCmds, List.mem_cons] at hc
  rcases hc with rfl | rfl | rfl | rfl | rfl | hmem
  · simp [shapeOKc, hfin]
  · simp [shapeOKc, hleaf]
  · simp [shapeOKc, hleaf]
  · simp [shapeOKc, hleaf]
  · simp [shapeOKc, hleaf]
  · cases hmem

theorem WFblob_facts (b : Blob) (h : WFblob b = true) :
    b.name.data ≠ [] ∧ endsSlash b.name = false := by
  unfold WFblob at h
  rw [Bool.and_eq_true, Bool.not_eq_true', Bool.not_eq_true'] at h
  refine ⟨?_, h.2⟩
  intro habs
  rw [List.isEmpty_eq_false] at h
  · exact absurd habs h.1

theorem blobCmds_shape (baseKey : String) (b : Blob) (hwf : WFblob b = true) :
    ShapeOK (blobDirect baseKey b ++ blobPipe baseKey b) := by
  obtain ⟨hwf1, hwf2⟩ := WFblob_facts b hwf
  obtain ⟨ht1, ht2⟩ := osPathSplit_tail_facts b.name hwf1 hwf2
  have hbase : endsSlash (baseKey ++ "/") = true := endsSlash_slash baseKey
  obtain ⟨hps, hfin⟩ := pipeSadds_facts (partsOf (osPathSplit b.name).1) (baseKey ++ "/")
    (partsOf_endsSlash _) hbase
  intro c hc
  rcases List.mem_append.mp hc with hd | hp
  · exact directOf_shape b _ _ c hd
  · simp only [blobPipe] at hp
    rcases List.mem_append.mp hp with hp1 | hp2
    · exact hps c hp1
    · exact leafCmds_shape _ _ b hfin ht1 ht2 c hp2

theorem allCmds_shape (baseKey : String) :
    ∀ (blobs : List Blob), (∀ b ∈ blobs, WFblob b = true) →
      ShapeOK (allCmds baseKey blobs) := by
  intro blobs
  induction blobs with
  | nil => intro _ c hc; cases hc
  | cons b rest ih =>
    intro hwf c hc
    simp only [allCmds] at hc
    rcases List.mem_append.mp hc with h1 | h2
    · exact blobCmds_shape baseKey b (hwf b (List.mem_cons_self _ _)) c h1
    · exact ih (fun b2 hb2 => hwf b2 (List.mem_cons_of_mem b hb2)) c h2

theorem allCmds_mem (baseKey : String) :
    ∀ (blobs : List Blob) (b : Blob), b ∈ blobs →
      ∀ c ∈ blobDirect baseKey b ++ blobPipe baseKey b, c ∈ allCmds baseKey blobs := by
  intro blobs
  induction blobs with
  | nil => intro b hb; cases hb
  | cons b2 rest ih =>
    intro b hb c hc
    simp only [allCmds]
    rcases List.mem_cons.mp hb with rfl | hb2
    · exact List.mem_append_left _ hc
    · exact List.mem_append_right _ (ih b hb2 c hc)

/-! ### The directory-chain invariant -/

/-- Every ancestor component of the path is in its parent directory's
entry set, and the leaf name is in its immediate parent's set:
`chainOK s base [p1/, p2/, ...] name` says `p1/ ∈ s[base]`,
`p2/ ∈ s[base + p1/]`, ..., `name ∈ s[base + p1/ + p2/ + ...]`. -/
def chainOK (s : Store) : String → List String → String → Bool
  | base, [], name2 => setMemObs s base name2
  | base, part :: rest, name2 => setMemObs s base part && chainOK s (base ++ part) rest name2

theorem chain_of_sadds (s2 : Store) :
    ∀ (parts : List String) (base name2 : String),
      (∀ k m,
        Cmd.sadd k m ∈ (pipeSadds base parts).1 ++ [Cmd.sadd (pipeSadds base parts).2 name2] →
        setMemObs s2 k m = true) →
      chainOK s2 base parts name2 = true := by
  intro parts
  induction parts with
  | nil =>
    intro base name2 h
    simp only [chainOK]
    exact h base name2 (by simp [pipeSadds])
  | cons part rest ih =>
    intro base name2 h
    simp only [chainOK, Bool.and_eq_true]
    constructor
    · exact h base part (by simp [pipeSadds])
    · refine ih (base ++ part) name2 ?_
      intro k m hm
      refine h k m ?_
      simp only [pipeSadds, List.cons_append, List.mem_cons]
      right
      exact hm

/-! ### `getattr` (lines 116-156)

The attrs dict is an association list of `PyVal`s: the decoded strings
from Redis plus the injected `int` fields, with the timestamp fields
coerced to `float` at the end.  `int()` and `float()` are modeled on
the decimal forms this system writes. -/

/-- A Python value held in the attrs dict. -/
inductive PyVal
  | s (v : String)
  | i (v : Int)
  | f (v : Rat)
  deriving DecidableEq, Repr

/-- `redis.hgetall` as `getattr` sees it: `ResponseError` when the key
holds a set, the (decoded, lines 126/134/142) field list otherwise; an
absent key yields the empty dict. -/
def hgetallDecoded (s : Store) (k : String) : Except PyError (List (String × String)) :=
  match s k with
  | some (.rset _) => .error .responseError
  | some (.hash l) => .ok l
  | none => .ok []

/-- Digits of a decimal literal, most significant first. -/
def digitsToNat (cs : List Char) : Nat :=
  cs.foldl (fun acc c => acc * 10 + (c.toNat - 48)) 0

/-- Python `int(s)`, on the optional-sign decimal strings this system
stores (whitespace, underscores and other bases are never produced). -/
def pyInt (v : String) : Option Int :=
  match v.data with
  | '-' :: rest =>
    if rest ≠ [] ∧ rest.all Char.isDigit then some (-(digitsToNat rest : Int)) else none
  | cs =>
    if cs ≠ [] ∧ cs.all Char.isDigit then some (digitsToNat cs : Int) else none

/-- Python `float(s)`, on optional-sign decimal strings with an optional
fractional part (the only forms this system stores). -/
def pyFloat (v : String) : Option Rat :=
  let parse : List Char → Option Rat := fun cs =>
    match splitOnChar '.' cs with
    | [a] => if a ≠ [] ∧ a.all Char.isDigit then some (digitsToNat a : Rat) else none
    | [a, bdig] =>
      if (a ≠ [] ∨ bdig ≠ []) ∧ a.all Char.isDigit ∧ bdig.all Char.isDigit then
        some ((digitsToNat a : Rat) + (digitsToNat bdig : Rat) / ((10 : Rat) ^ bdig.length))
      else none
    | _ => none
  match v.data with
  | '-' :: rest => (parse rest).map (fun q => -q)
  | cs => parse cs

/-- Python `int(x)` on a dict value: a string is parsed (`ValueError` when
malformed), an int passes through, a float truncates toward zero. -/
def pyIntOf : PyVal → Except PyError Int
  | .s v =>
    match pyInt v with
    | some n => .ok n
    | none => .error .valueError
  | .i n => .ok n
  | .f q => .ok (if 0 ≤ q then q.floor else -(-q).floor)

/-- Python `float(x)` on a dict value. -/
def pyFloatOf : PyVal → Except PyError Rat
  | .s v =>
    match pyFloat v with
    | some q => .ok q
    | none => .error .valueError
  | .i n => .ok (n : Rat)
  | .f q => .ok q

/-- The decoded redis hash as a Python dict of strings. -/
def decodeAttrs (l : List (String × String)) : List (String × PyVal) :=
  l.map (fun kv => (kv.1, PyVal.s kv.2))

/-- `stat.S_IFDIR | 0o644`. -/
def DIR_MODE : Int := 16804

/-- `stat.S_IFREG | 0o644`. -/
def REG_MODE : Int := 33188

/-- The directory branch (lines 126-129 and 142-145): decode, then
`st_mode`, `st_size = BLOCK_SIZE * 4`, `st_nlink = 2`. -/
def dirRecord (l : List (String × String)) : List (String × PyVal) :=
  aupsert (aupsert (aupsert (decodeAttrs l) "st_mode" (.i DIR_MODE))
    "st_size" (.i (BLOCK_SIZE * 4))) "st_nlink" (.i 2)

/-- The file branch (lines 134-136): decode, then `st_mode`,
`st_nlink = 1`. -/
def fileRecord (l : List (String × String)) : List (String × PyVal) :=
  aupsert (aupsert (decodeAttrs l) "st_mode" (.i REG_MODE)) "st_nlink" (.i 1)

/-- Lines 148-151: `st_uid` and `st_gid` are both `self.uid`
(`os.getuid()`, line 53; no group id is ever read), `st_dev` and
`st_ino` are the constant 0. -/
def injectOwner (uid : Int) (a : List (String × PyVal)) : List (String × PyVal) :=
  aupsert (aupsert (aupsert (aupsert a "st_uid" (.i uid)) "st_gid" (.i uid))
    "st_dev" (.i 0)) "st_ino" (.i 0)

/-- `int(attrs['st_size'])`: `KeyError` when the field is missing. -/
def getSizeInt (a : List (String × PyVal)) : Except PyError Int :=
  match alookup a "st_size" with
  | none => .error .keyError
  | some sv => pyIntOf sv

/-- Truncating integer division, modeling `int(x / y)` on the exact
quotient (the float rounding of CPython is immaterial at these sizes). -/
def intDivTrunc (a b : Int) : Int :=
  if 0 ≤ a then Int.ofNat (a.toNat / b.toNat) else -Int.ofNat ((-a).toNat / b.toNat)

/-- Line 152: `attrs['st_blocks'] = int((int(attrs['st_size']) +
BLOCK_SIZE - 1) / BLOCK_SIZE)`. -/
def setBlocks (a : List (String × PyVal)) : Except PyError (List (String × PyVal)) :=
  match getSizeInt a with
  | .error e => .error e
  | .ok sz =>
    .ok (aupsert a "st_blocks" (.i (intDivTrunc (sz + (BLOCK_SIZE : Int) - 1) (BLOCK_SIZE : Int))))

/-- One step of the loop at lines 153-154: `attrs[t] = float(attrs[t])`;
`KeyError` when the field is missing, `ValueError` when unparseable. -/
def coerceTime (a : List (String × PyVal)) (t : String) :
    Except PyError (List (String × PyVal)) :=
  match alookup a t with
  | none => .error .keyError
  | some v =>
    match pyFloatOf v with
    | .error e => .error e
    | .ok q => .ok (aupsert a t (.f q))

/-- Line 155: `attrs['st_size'] = int(attrs['st_size'])`. -/
def coerceSize (a : List (String × PyVal)) : Except PyError (List (String × PyVal)) :=
  match getSizeInt a with
  | .error e => .error e
  | .ok sz => .ok (aupsert a "st_size" (.i sz))

/-- The post-processing block of `getattr` (lines 148-156), applied to
whichever branch record was selected. -/
def postProcess (uid : Int) (a0 : List (String × PyVal)) :
    Except PyError (List (String × PyVal)) :=
  match setBlocks (injectOwner uid a0) with
  | .error e => .error e
  | .ok a5 =>
    match coerceTime a5 "st_atime" with
    | .error e => .error e
    | .ok a6 =>
      match coerceTime a6 "st_mtime" with
      | .error e => .error e
      | .ok a7 =>
        match coerceTime a7 "st_ctime" with
        | .error e => .error e
        | .ok a8 => coerceSize a8

/-- `Festivus.getattr` (lines 116-156), with `self.base_key` and
`self.uid` as parameters.  The `try/except ResponseError` around the
first `hgetall` selects the set-typed-key branch; a `ResponseError`
from the second or third `hgetall` is raised inside that handling and
propagates. -/
def getattr_ (rs : Store) (baseKey : String) (uid : Int) (path : String) :
    Except PyError (List (String × PyVal)) :=
  match hgetallDecoded rs (baseKey ++ path) with
  | .error _ =>
    match hgetallDecoded rs (baseKey ++ path ++ DIR_METADATA) with
    | .error _ => .error .responseError
    | .ok l2 =>
      if l2.length > 0 then postProcess uid (dirRecord l2)
      else .error .enoent
  | .ok l =>
    if l.length > 0 then postProcess uid (fileRecord l)
    else
      match hgetallDecoded rs (baseKey ++ path ++ "/" ++ DIR_METADATA) with
      | .error _ => .error .responseError
      | .ok l3 =>
        if l3.length > 0 then postProcess uid (dirRecord l3)
        else .error .enoent

/-! ### The file session manager (`open`/`read`/`flush`, lines 199-244) -/

/-- `mimetypes.guess_type(path)`: modeled as an opaque tag of the path.
Note the source passes this whole `(type, encoding)` tuple as the
content type (line 240-241), not just its first component. -/
structure MimeGuess where
  ofPath : String
  deriving DecidableEq, Repr

/-- The value `mimetypes.guess_type(path)`. -/
def mimetypesGuessType (path : String) : MimeGuess := ⟨path⟩

/-- Process state visible to the file methods: the GCS bucket contents,
the `self.temp_files` session dict, and a log of
`blob.upload_from_string` calls. -/
structure FSState where
  bucket : String → Option (List Nat)
  tempFiles : String → Option (List Nat)
  uploads : List (String × List Nat × MimeGuess)

/-- `self.temp_files[path] = content`. -/
def updateTemp (st : FSState) (p : String) (c : List Nat) : FSState :=
  { st with tempFiles := fun q => if q = p then some c else st.tempFiles q }

/-- `open` (lines 199-209): `bucket.get_blob(path[1:])` is `None` when the
object does not exist, and `None.download_as_string()` then raises
`AttributeError` before any session entry is written; otherwise the full
content is buffered under `path`. -/
def open_ (st : FSState) (path : String) : FSState × Option PyError :=
  match st.bucket (strTail path) with
  | none => (st, some .attributeError)
  | some content => (updateTemp st path content, none)

/-- What `read` returns: the source returns the *number* `length`
(line 224), where a bytes value was documented. -/
inductive PyRet
  | int (n : Nat)
  | bytes (b : List Nat)
  deriving DecidableEq, Repr

/-- Python `b[offset : offset + length]` on bytes: the clamped slice. -/
def pySlice (b : List Nat) (offset length : Nat) : List Nat :=
  (b.drop offset).take length

/-- `read` (lines 214-224).  `self.temp_files[path]` raises `KeyError`
when no session exists; a session with a *falsy* (empty) buffer is
re-fetched.  Line 223 computes the slice and discards it; line 224
returns the integer `length`. -/
def read_ (st : FSState) (path : String) (length offset : Nat) :
    FSState × Except PyError PyRet :=
  match st.tempFiles path with
  | none => (st, .error .keyError)
  | some buf =>
    if buf.isEmpty then
      match st.bucket (strTail path) with
      | none => (st, .error .attributeError)
      | some content => (updateTemp st path content, .ok (.int length))
    else (st, .ok (.int length))

/-- `flush` (lines 238-241): `get_blob` on a missing object gives `None`
and the method call on it raises `AttributeError`; then
`self.temp_files[path]` raises `KeyError` when no session exists;
otherwise the whole buffer is uploaded unconditionally — there is no
dirty flag anywhere in the class. -/
def flush_ (st : FSState) (path : String) : FSState × Option PyError :=
  match st.bucket (strTail path) with
  | none => (st, some .attributeError)
  | some _ =>
    match st.tempFiles path with
    | none => (st, some .keyError)
    | some buf =>
      ({ st with uploads := st.uploads ++ [(strTail path, buf, mimetypesGuessType path)] },
        none)

/-! ### `getattr` post-processing lemmas -/

theorem pyIntOf_no_enoent (v : PyVal) (e : PyError) (h : pyIntOf v = .error e) :
    e ≠ .enoent := by
  cases v with
  | s str =>
    simp only [pyIntOf] at h
    cases hp : pyInt str with
    | some n =>
      simp only [hp] at h
      exact Except.noConfusion h
    | none =>
      simp only [hp] at h
      injection h with h2
      rw [← h2]
      decide
  | i n =>
    simp only [pyIntOf] at h
    exact Except.noConfusion h
  | f q =>
    simp only [pyIntOf] at h
    exact Except.noConfusion h

theorem pyFloatOf_no_enoent (v : PyVal) (e : PyError) (h : pyFloatOf v = .error e) :
    e ≠ .enoent := by
  cases v with
  | s str =>
    simp only [pyFloatOf] at h
    cases hp : pyFloat str with
    | some q =>
      simp only [hp] at h
      exact Except.noConfusion h
    | none =>
      simp only [hp] at h
      injection h with h2
      rw [← h2]
      decide
  | i n =>
    simp only [pyFloatOf] at h
    exact Except.noConfusion h
  | f q =>
    simp only [pyFloatOf] at h
    exact Except.noConfusion h

theorem getSizeInt_no_enoent (a : List (String × PyVal)) (e : PyError)
    (h : getSizeInt a = .error e) : e ≠ .enoent := by
  unfold getSizeInt at h
  cases hl : alookup a "st_size" with
  | none =>
    simp only [hl] at h
    injection h with h2
    rw [← h2]
    decide
  | some sv =>
    simp only [hl] at h
    exact pyIntOf_no_enoent sv e h

theorem setBlocks_no_enoent (a : List (String × PyVal)) (e : PyError)
    (h : setBlocks a = .error e) : e ≠ .enoent := by
  unfold setBlocks at h
  cases hs : getSizeInt a with
  | error e2 =>
    simp only [hs] at h
    injection h with h2
    rw [← h2]
    exact getSizeInt_no_enoent a e2 hs
  | ok sz =>
    simp only [hs] at h
    exact Except.noConfusion h

theorem coerceTime_no_enoent (a : List (String × PyVal)) (t : String) (e : PyError)
    (h : coerceTime a t = .error e) : e ≠ .enoent := by
  unfold coerceTime at h
  cases hl : alookup a t with
  | none =>
    simp only [hl] at h
    injection h with h2
    rw [← h2]
    decide
  | some v =>
    simp only [hl] at h
    cases hf : pyFloatOf v with
    | error e2 =>
      simp only [hf] at h
      injection h with h2
      rw [← h2]
      exact pyFloatOf_no_enoent v e2 hf
    | ok q =>
      simp only [hf] at h
      exact Except.noConfusion h

theorem coerceSize_no_enoent (a : List (String × PyVal)) (e : PyError)
    (h : coerceSize a = .error e) : e ≠ .enoent := by
  unfold coerceSize at h
  cases hs : getSizeInt a with
  | error e2 =>
    simp only [hs] at h
    injection h with h2
    rw [← h2]
    exact getSizeInt_no_enoent a e2 hs
  | ok sz =>
    simp only [hs] at h
    exact Except.noConfusion h

theorem postProcess_no_enoent (uid : Int) (a0 : List (String × PyVal)) :
    postProcess uid a0 ≠ .error .enoent := by
  intro h
  unfold postProcess at h
  cases h5 : setBlocks (injectOwner uid a0) with
  | error e =>
    simp only [h5] at h
    injection h with h2
    exact setBlocks_no_enoent _ e h5 h2
  | ok a5 =>
    simp only [h5] at h
    cases h6 : coerceTime a5 "st_atime" with
    | error e =>
      simp only [h6] at h
      injection h with h2
      exact coerceTime_no_enoent _ _ e h6 h2
    | ok a6 =>
      simp only [h6] at h
      cases h7 : coerceTime a6 "st_mtime" with
      | error e =>
        simp only [h7] at h
        injection h with h2
        exact coerceTime_no_enoent _ _ e h7 h2
      | ok a7 =>
        simp only [h7] at h
        cases h8 : coerceTime a7 "st_ctime" with
        | error e =>
          simp only [h8] at h
          injection h with h2
          exact coerceTime_no_enoent _ _ e h8 h2
        | ok a8 =>
          simp only [h8] at h
          exact coerceSize_no_enoent a8 .enoent h rfl

theorem setBlocks_lookup (a a2 : List (String × PyVal)) (g : String)
    (h : setBlocks a = .ok a2) (hg : g ≠ "st_blocks") : alookup a2 g = alookup a g := by
  unfold setBlocks at h
  cases hs : getSizeInt a with
  | error e =>
    simp only [hs] at h
    exact Except.noConfusion h
  | ok sz =>
    simp only [hs] at h
    injection h with h2
    rw [← h2]
    exact alookup_aupsert_ne a "st_blocks" g _ hg

theorem coerceTime_lookup (a a2 : List (String × PyVal)) (t g : String)
    (h : coerceTime a t = .ok a2) (hg : g ≠ t) : alookup a2 g = alookup a g := by
  unfold coerceTime at h
  cases hl : alookup a t with
  | none =>
    simp only [hl] at h
    exact Except.noConfusion h
  | some v =>
    simp only [hl] at h
    cases hf : pyFloatOf v with
    | error e =>
      simp only [hf] at h
      exact Except.noConfusion h
    | ok q =>
      simp only [hf] at h
      injection h with h2
      rw [← h2]
      exact alookup_aupsert_ne a t g _ hg

theorem coerceSize_lookup (a a2 : List (String × PyVal)) (g : String)
    (h : coerceSize a = .ok a2) (hg : g ≠ "st_size") : alookup a2 g = alookup a g := by
  unfold coerceSize at h
  cases hs : getSizeInt a with
  | error e =>
    simp only [hs] at h
    exact Except.noConfusion h
  | ok sz =>
    simp only [hs] at h
    injection h with h2
    rw [← h2]
    exact alookup_aupsert_ne a "st_size" g _ hg

theorem injectOwner_lookups (uid : Int) (a : List (String × PyVal)) :
    alookup (injectOwner uid a) "st_uid" = some (.i uid) ∧
    alookup (injectOwner uid a) "st_gid" = some (.i uid) ∧
    alookup (injectOwner uid a) "st_dev" = some (.i 0) ∧
    alookup (injectOwner uid a) "st_ino" = some (.i 0) := by
  unfold injectOwner
  refine ⟨?_, ?_, ?_, ?_⟩
  · rw [alookup_aupsert_ne _ _ _ _ (by decide), alookup_aupsert_ne _ _ _ _ (by decide),
      alookup_aupsert_ne _ _ _ _ (by decide), alookup_aupsert_self]
  · rw [alookup_aupsert_ne _ _ _ _ (by decide), alookup_aupsert_ne _ _ _ _ (by decide),
      alookup_aupsert_self]
  · rw [alookup_aupsert_ne _ _ _ _ (by decide), alookup_aupsert_self]
  · rw [alookup_aupsert_self]

theorem postProcess_owner (uid : Int) (a0 out : List (String × PyVal))
    (h : postProcess uid a0 = .ok out) :
    alookup out "st_uid" = some (.i uid) ∧
    alookup out "st_gid" = some (.i uid) ∧
    alookup out "st_dev" = some (.i 0) ∧
    alookup out "st_ino" = some (.i 0) := by
  unfold postProcess at h
  cases h5 : setBlocks (injectOwner uid a0) with
  | error e =>
    simp only [h5] at h
    exact Except.noConfusion h
  | ok a5 =>
    simp only [h5] at h
    cases h6 : coerceTime a5 "st_atime" with
    | error e =>
      simp only [h6] at h
      exact Except.noConfusion h
    | ok a6 =>
      simp only [h6] at h
      cases h7 : coerceTime a6 "st_mtime" with
      | error e =>
        simp only [h7] at h
        exact Except.noConfusion h
      | ok a7 =>
        simp only [h7] at h
        cases h8 : coerceTime a7 "st_ctime" with
        | error e =>
          simp only [h8] at h
          exact Except.noConfusion h
        | ok a8 =>
          simp only [h8] at h
          obtain ⟨hu, hg, hd, hi⟩ := injectOwner_lookups uid a0
          have transfer : ∀ g : String, g ≠ "st_size" → g ≠ "st_ctime" → g ≠ "st_mtime" →
              g ≠ "st_atime" → g ≠ "st_blocks" →
              alookup out g = alookup (injectOwner uid a0) g := by
            intro g hg1 hg2 hg3 hg4 hg5
            rw [coerceSize_lookup a8 out g h hg1, coerceTime_lookup a7 a8 _ g h8 hg2,
              coerceTime_lookup a6 a7 _ g h7 hg3, coerceTime_lookup a5 a6 _ g h6 hg4,
              setBlocks_lookup (injectOwner uid a0) a5 g h5 hg5]
          refine ⟨?_, ?_, ?_, ?_⟩
          · rw [transfer "st_uid" (by decide) (by decide) (by decide) (by decide) (by decide)]
            exact hu
          · rw [transfer "st_gid" (by decide) (by decide) (by decide) (by decide) (by decide)]
            exact hg
          · rw [transfer "st_dev" (by decide) (by decide) (by decide) (by decide) (by decide)]
            exact hd
          · rw [transfer "st_ino" (by decide) (by decide) (by decide) (by decide) (by decide)]
            exact hi

theorem getattr_ok_postProcess (rs : Store) (bk : String) (uid : Int) (p : String)
    (out : List (String × PyVal)) (h : getattr_ rs bk uid p = .ok out) :
    ∃ a0, postProcess uid a0 = .ok out := by
  unfold getattr_ at h
  cases h1 : hgetallDecoded rs (bk ++ p) with
  | error e =>
    simp only [h1] at h
    cases h2 : hgetallDecoded rs (bk ++ p ++ DIR_METADATA) with
    | error e2 =>
      simp only [h2] at h
      exact Except.noConfusion h
    | ok l2 =>
      simp only [h2] at h
      split at h
      · exact ⟨_, h⟩
      · exact Except.noConfusion h
  | ok l =>
    simp only [h1] at h
    split at h
    · exact ⟨_, h⟩
    · cases h3 : hgetallDecoded rs (bk ++ p ++ "/" ++ DIR_METADATA) with
      | error e3 =>
        simp only [h3] at h
        exact Except.noConfusion h
      | ok l3 =>
        simp only [h3] at h
        split at h
        · exact ⟨_, h⟩
        · exact Except.noConfusion h

/-! ### The NotFound condition of `getattr` -/

/-- A key whose `HGETALL` yields the empty dict: absent, or an empty hash. -/
def emptyHash : Option RVal → Prop
  | none => True
  | some (.hash l) => l = []
  | some (.rset _) => False

/-- When `getattr` raises ENOENT, read off the code: either the direct
key holds a set and the record at `path + marker` is empty or absent
(the set branch does NOT retry `path + '/' + marker`), or the direct key
reads as an empty hash and the record at `path + '/' + marker` is empty
or absent. -/
def notFoundCond (rs : Store) (baseKey path : String) : Prop :=
  ((∃ l, rs (baseKey ++ path) = some (.rset l)) ∧
    emptyHash (rs (baseKey ++ path ++ DIR_METADATA))) ∨
  (emptyHash (rs (baseKey ++ path)) ∧
    emptyHash (rs (baseKey ++ path ++ "/" ++ DIR_METADATA)))

theorem getattr_enoent_iff (rs : Store) (bk : String) (uid : Int) (p : String) :
    getattr_ rs bk uid p = .error .enoent ↔ notFoundCond rs bk p := by
  unfold getattr_ notFoundCond
  cases hd : rs (bk ++ p) with
  | some v =>
    cases v with
    | rset l =>
      simp only [hgetallDecoded, hd]
      cases h2 : rs (bk ++ p ++ DIR_METADATA) with
      | none => simp [emptyHash]
      | some v2 =>
        cases v2 with
        | hash l2 =>
          cases l2 with
          | nil => simp [emptyHash]
          | cons x xs => simp [emptyHash, postProcess_no_enoent]
        | rset l2 => simp [emptyHash]
    | hash l =>
      simp only [hgetallDecoded, hd]
      cases l with
      | cons x xs => simp [emptyHash, postProcess_no_enoent]
      | nil =>
        simp only [List.length_nil]
        cases h3 : rs (bk ++ p ++ "/" ++ DIR_METADATA) with
        | none => simp [hgetallDecoded, emptyHash]
        | some v3 =>
          cases v3 with
          | hash l3 =>
            cases l3 with
            | nil => simp [hgetallDecoded, emptyHash]
            | cons x xs => simp [hgetallDecoded, emptyHash, postProcess_no_enoent]
          | rset l3 => simp [hgetallDecoded, emptyHash]
  | none =>
    simp only [hgetallDecoded, hd]
    cases h3 : rs (bk ++ p ++ "/" ++ DIR_METADATA) with
    | none => simp [hgetallDecoded, emptyHash]
    | some v3 =>
      cases v3 with
      | hash l3 =>
        cases l3 with
        | nil => simp [hgetallDecoded, emptyHash]
        | cons x xs => simp [hgetallDecoded, emptyHash, postProcess_no_enoent]
      | rset l3 => simp [hgetallDecoded, emptyHash]

/-! ### Concrete fixtures for the claim theorems -/

/-- A finite store given by an association list of keys. -/
def storeOfList (l : List (String × RVal)) : Store := fun k => alookup l k

/-- Unwrap an `Except` result, with a default for the error case (used
only to name the successful result of a concrete computation). -/
def okOr {α : Type} (dflt : α) : Except PyError α → α
  | .ok a => a
  | .error _ => dflt

/-- Session state with an open 10-byte buffer at `"/f"`. -/
def c1State : FSState :=
  { bucket := fun _ => none
    tempFiles := fun q => if q = "/f" then some [0, 1, 2, 3, 4, 5, 6, 7, 8, 9] else none
    uploads := [] }

/-- Two blobs under directory `d`: modification times 10 then 5,
creation times 3 then 4, in enumeration order. -/
def c2b1 : Blob := ⟨"d/x", 1, 10, 3⟩

/-- Second blob of the C2 run. -/
def c2b2 : Blob := ⟨"d/y", 1, 5, 4⟩

/-- A store where the key `"/a/"` was planted as a hash, so the pipelined
`SADD "/a/"` of the next blob fails with WRONGTYPE. -/
def c3Store : Store := storeOfList [("/a/", RVal.hash [("planted", "1")])]

/-- A blob with one ancestor directory. -/
def c3Blob : Blob := ⟨"a/b.txt", 7, 5, 3⟩

/-- An empty bucket and empty session map. -/
def c4State : FSState :=
  { bucket := fun _ => none
    tempFiles := fun _ => none
    uploads := [] }

/-- A bucket holding one object `"f"`, with no sessions. -/
def c4StateB : FSState :=
  { bucket := fun n => if n = "f" then some [9] else none
    tempFiles := fun _ => none
    uploads := [] }

/-- A store where the direct key `"/p"` holds a set, `"/p" + marker` is
absent, and `"/p/" + marker` holds a nonempty record. -/
def c5Store : Store :=
  storeOfList [("/p", RVal.rset ["x"]), ("/p/" ++ DIR_METADATA, RVal.hash [("st_mtime", "1")])]

/-- A single well-formed blob. -/
def c6Blob : Blob := ⟨"a/b.txt", 3, 2, 1⟩

/-- The spec scenario blob `"a/b/c.txt"` of 10 bytes. -/
def c7Blob : Blob := ⟨"a/b/c.txt", 10, 2, 1⟩

/-- An object `"f"` and a session on `"/f"` whose buffer equals the
stored content (opened and never written: certainly not dirty). -/
def c8State : FSState :=
  { bucket := fun n => if n = "f" then some [1, 2] else none
    tempFiles := fun q => if q = "/f" then some [1, 2] else none
    uploads := [] }

/-- An object `"f"` in the bucket but no session entry at all. -/
def c9State : FSState :=
  { bucket := fun n => if n = "f" then some [1, 2, 3, 4] else none
    tempFiles := fun _ => none
    uploads := [] }

/-- A store with one fully populated file record at `"/f"`. -/
def c10Store : Store :=
  storeOfList
    [("/f", RVal.hash [("st_mtime", "3"), ("st_atime", "4"), ("st_ctime", "5"), ("st_size", "10")])]

/-! ### Claim theorems -/

/-- C1: the claim says `read(p, 100, 0)` on a session with a 10-byte
buffer returns exactly those 10 bytes.  The code is wrong against its
own docstring ("Returns data as a string ... Should return *size*
bytes"): line 223 computes the slice and discards it, and line 224
returns the integer `length`.  Here `read` yields the number `100`; the
clamped slice the claim asks for would have been the full 10-byte
buffer, which is a different value. -/
theorem C1_read_returns_length :
    (read_ c1State "/f" 100 0).2 = .ok (.int 100) ∧
    pySlice [0, 1, 2, 3, 4, 5, 6, 7, 8, 9] 0 100 = [0, 1, 2, 3, 4, 5, 6, 7, 8, 9] ∧
    (Except.ok (PyRet.int 100) : Except PyError PyRet) ≠
      .ok (.bytes [0, 1, 2, 3, 4, 5, 6, 7, 8, 9]) :=
  ⟨rfl, rfl, by simp⟩

/-- C2: the claim says the bulk indexer merges directory metadata with
max(`st_mtime`) / min(`st_ctime`).  `hgetall` returns `bytes` keys and
line 70 subscripts the dict with the `str` key `'st_mtime'`, so the
`except KeyError:` create-branch runs for every blob and each blob
overwrites the record (and were the lookup ever to succeed, lines 70-71
would raise `TypeError`).  After indexing two blobs with modification
times 10 then 5 and creation times 3 then 4, the root directory record
holds the LAST blob's times `"5"` / `"4"`, not the max `"10"` / min
`"3"`. -/
theorem C2_merge_last_writer_wins :
    (runIndexer "" emptyStore [c2b1, c2b2]).2 = none ∧
    fieldObs (runIndexer "" emptyStore [c2b1, c2b2]).1 ("/" ++ DIR_METADATA) "st_mtime"
      = some (epochStr c2b2.updated) ∧
    fieldObs (runIndexer "" emptyStore [c2b1, c2b2]).1 ("/" ++ DIR_METADATA) "st_ctime"
      = some (epochStr c2b2.timeCreated) ∧
    some (epochStr c2b2.updated) ≠ some (epochStr (max c2b1.updated c2b2.updated)) ∧
    some (epochStr c2b2.timeCreated) ≠
      some (epochStr (min c2b1.timeCreated c2b2.timeCreated)) :=
  ⟨by decide, by decide, by decide, by decide, by decide⟩

theorem directOf_forms (b : Blob) :
    ∀ (parts : List String) (base : String), ∀ c ∈ directOf base parts b,
      (∃ a, c = Cmd.checkHash (a ++ DIR_METADATA)) ∨
      ∃ a f v, c = Cmd.hset (a ++ DIR_METADATA) f v := by
  intro parts
  induction parts with
  | nil => intro base c hc; cases hc
  | cons part rest ih =>
    intro base c hc
    simp only [directOf, List.mem_cons] at hc
    rcases hc with rfl | rfl | rfl | rfl | hmem
    · exact Or.inl ⟨base, rfl⟩
    · exact Or.inr ⟨base, _, _, rfl⟩
    · exact Or.inr ⟨base, _, _, rfl⟩
    · exact Or.inr ⟨base, _, _, rfl⟩
    · exact ih (base ++ part) c hmem

theorem directOf_ne_nil (b : Blob) (base : String) (parts : List String) (h : parts ≠ []) :
    directOf base parts b ≠ [] := by
  cases parts with
  | nil => exact absurd rfl h
  | cons p rest => simp [directOf]

/-- C3 counterexample: the claim says all metadata writes for one object
are batched into a single atomic pipeline, so a batch failure leaves no
partial state for the object.  Processing `"a/b.txt"` against a store
where `"/a/"` was left as a hash, the pipeline fails (WRONGTYPE on
`SADD "/a/"`) — yet the root directory metadata record for this very
object has already been written by the immediate (non-pipelined)
`redis.hset` calls of lines 73-87. -/
theorem C3_counterexample_partial_state :
    (processBlob "" c3Store c3Blob).2 = some PyError.responseError ∧
    fieldObs (processBlob "" c3Store c3Blob).1 ("/" ++ DIR_METADATA) "st_mtime"
      = some (epochStr c3Blob.updated) ∧
    fieldObs c3Store ("/" ++ DIR_METADATA) "st_mtime" = none :=
  ⟨by decide, by decide, by decide⟩

/-- C3 amended: per object, only the directory-set additions and the
leaf attribute record go through the pipeline submitted at
`pipe.execute()`; each ancestor directory's metadata record is written
immediately outside the pipeline (every immediate command is an
`HGETALL` check or an `HSET` on a marker key), and these immediate
writes are nonempty whenever the object has an ancestor directory — so
a batch failure aborts the run but the object's directory metadata
writes persist. -/
theorem C3_amended_split :
    (∀ (bk : String) (st : Store) (b : Blob),
      processBlob bk st b = execCmds st (blobDirect bk b ++ blobPipe bk b)) ∧
    (∀ (bk : String) (b : Blob), ∀ c ∈ blobDirect bk b,
      (∃ a, c = Cmd.checkHash (a ++ DIR_METADATA)) ∨
      ∃ a f v, c = Cmd.hset (a ++ DIR_METADATA) f v) ∧
    ∀ (bk : String) (b : Blob), partsOf (osPathSplit b.name).1 ≠ [] →
      blobDirect bk b ≠ [] := by
  refine ⟨processBlob_eq_exec, ?_, ?_⟩
  · intro bk b
    exact directOf_forms b _ (bk ++ "/")
  · intro bk b h
    exact directOf_ne_nil b (bk ++ "/") _ h

/-- Witness for the C3 amended claim at the blob `"a/b.txt"`. -/
theorem C3_amended_split_witness :
    (Cmd.checkHash ("/" ++ DIR_METADATA) ∈ blobDirect "" c3Blob) ∧
    ((∃ a, Cmd.checkHash ("/" ++ DIR_METADATA) = Cmd.checkHash (a ++ DIR_METADATA)) ∨
      ∃ a f v, Cmd.checkHash ("/" ++ DIR_METADATA) = Cmd.hset (a ++ DIR_METADATA) f v) ∧
    (partsOf (osPathSplit c3Blob.name).1 ≠ [] ∧ blobDirect "" c3Blob ≠ []) :=
  ⟨by decide, C3_amended_split.2.1 "" c3Blob _ (by decide),
    by decide, C3_amended_split.2.2 "" c3Blob (by decide)⟩

/-- C4 counterexample: the claim says `open` on a nonexistent object
fails with NotFound.  On an empty bucket it fails with
`AttributeError` (`get_blob` returns `None` and
`None.download_as_string()` raises), which is not ENOENT — though
indeed no session entry is created. -/
theorem C4_counterexample_attribute_error :
    open_ c4State "/x" = (c4State, some PyError.attributeError) ∧
    some PyError.attributeError ≠ some PyError.enoent ∧
    (open_ c4State "/x").1.tempFiles "/x" = none :=
  ⟨rfl, by decide, rfl⟩

/-- C4 amended: `open` on a path whose object is missing fails with
`AttributeError` — not NotFound — leaving the state (in particular the
session map) unchanged; on a path whose object exists it creates a
session buffered with the full object content. -/
theorem C4_amended_open (st : FSState) (p : String) :
    (st.bucket (strTail p) = none → open_ st p = (st, some PyError.attributeError)) ∧
    ∀ c, st.bucket (strTail p) = some c → open_ st p = (updateTemp st p c, none) := by
  constructor
  · intro h
    simp only [open_, h]
  · intro c h
    simp only [open_, h]

/-- Witness for the C4 amended claim: both branches at concrete states. -/
theorem C4_amended_open_witness :
    (c4State.bucket (strTail "/x") = none ∧
      open_ c4State "/x" = (c4State, some PyError.attributeError)) ∧
    (c4StateB.bucket (strTail "/f") = some [9] ∧
      open_ c4StateB "/f" = (updateTemp c4StateB "/f" [9], none)) :=
  ⟨⟨rfl, (C4_amended_open c4State "/x").1 rfl⟩,
    ⟨rfl, (C4_amended_open c4StateB "/f").2 [9] rfl⟩⟩

/-- C5 counterexample: the claim says `getattr` raises NotFound only if
no record exists under any of the three candidate keys, retrying
`path + '/' + marker` even in the type-mismatch branch.  In this store
the direct key `"/p"` holds a set and `"/p" + marker` is empty, and
`getattr` raises ENOENT even though a nonempty record exists under the
third key `"/p/" + marker`: the set branch never retries. -/
theorem C5_counterexample_no_retry :
    getattr_ c5Store "" 0 "/p" = .error PyError.enoent ∧
    hgetallDecoded c5Store ("" ++ "/p" ++ "/" ++ DIR_METADATA) = .ok [("st_mtime", "1")] ∧
    ([("st_mtime", "1")] : List (String × String)).length > 0 :=
  ⟨rfl, rfl, by decide⟩

/-- C5 amended: `getattr` raises NotFound exactly when either the direct
key holds a set and the record at `path + marker` is empty or absent
(no retry of `path + '/' + marker` in this branch), or the direct key
reads as an empty or absent hash and the record at
`path + '/' + marker` is empty or absent. -/
theorem C5_amended_enoent_iff (rs : Store) (bk : String) (uid : Int) (p : String) :
    getattr_ rs bk uid p = .error .enoent ↔ notFoundCond rs bk p :=
  getattr_enoent_iff rs bk uid p

/-- C6: running the bulk indexer a second time over the unchanged object
set (with the well-formed object names any successful run requires)
succeeds and reproduces exactly the state left by the first run: every
key shape, every attribute-record field, and every directory-entry-set
membership is unchanged. -/
theorem C6_indexer_idempotent (baseKey : String) (blobs : List Blob) (s s2 : Store)
    (hwf : ∀ b ∈ blobs, WFblob b = true)
    (hrun : runIndexer baseKey s blobs = (s2, none)) :
    (runIndexer baseKey s2 blobs).2 = none ∧
      ObsEq (runIndexer baseKey s2 blobs).1 s2 := by
  rw [runIndexer_eq_exec] at hrun
  rw [runIndexer_eq_exec]
  exact exec_twice (allCmds baseKey blobs) s s2 s2 (allCmds_shape baseKey blobs hwf) hrun
    (fun k => rfl) (fun k m => rfl) (fun k f => Or.inl rfl)

/-- Witness for C6 at one blob indexed from the empty store. -/
theorem C6_indexer_idempotent_witness :
    (∀ b ∈ [c6Blob], WFblob b = true) ∧
    runIndexer "" emptyStore [c6Blob] = ((runIndexer "" emptyStore [c6Blob]).1, none) ∧
    ((runIndexer "" (runIndexer "" emptyStore [c6Blob]).1 [c6Blob]).2 = none ∧
      ObsEq (runIndexer "" (runIndexer "" emptyStore [c6Blob]).1 [c6Blob]).1
        (runIndexer "" emptyStore [c6Blob]).1) :=
  ⟨by decide, rfl,
    C6_indexer_idempotent "" [c6Blob] emptyStore _ (by decide) rfl⟩

/-- C7: after a successful indexer run, every stored object's ancestor
directory components are each present (with trailing separator) in
their parent directory's entry set, from the root set down, and the
leaf name is in its immediate parent's set. -/
theorem C7_ancestor_entries (baseKey : String) (blobs : List Blob) (s s2 : Store)
    (hrun : runIndexer baseKey s blobs = (s2, none)) :
    ∀ b ∈ blobs,
      chainOK s2 (baseKey ++ "/") (partsOf (osPathSplit b.name).1)
        (osPathSplit b.name).2 = true := by
  intro b hb
  rw [runIndexer_eq_exec] at hrun
  refine chain_of_sadds s2 _ _ _ ?_
  intro k m hm
  refine sadd_establish (allCmds baseKey blobs) s s2 k m hrun ?_
  refine allCmds_mem baseKey blobs b hb _ ?_
  refine List.mem_append_right _ ?_
  simp only [blobPipe]
  rcases List.mem_append.mp hm with h1 | h2
  · exact List.mem_append_left _ h1
  · simp only [List.mem_singleton] at h2
    rw [h2]
    exact List.mem_append_right _ (List.mem_cons_self _ _)

/-- Witness for C7: the spec scenario, one object `"a/b/c.txt"` indexed
from the empty store (so `"a/" ∈ s["/"]`, `"b/" ∈ s["/a/"]`,
`"c.txt" ∈ s["/a/b/"]`). -/
theorem C7_ancestor_entries_witness :
    runIndexer "" emptyStore [c7Blob] = ((runIndexer "" emptyStore [c7Blob]).1, none) ∧
    c7Blob ∈ [c7Blob] ∧
    chainOK (runIndexer "" emptyStore [c7Blob]).1 ("" ++ "/")
      (partsOf (osPathSplit c7Blob.name).1) (osPathSplit c7Blob.name).2 = true :=
  ⟨rfl, by decide,
    C7_ancestor_entries "" [c7Blob] emptyStore _ rfl c7Blob (by decide)⟩

/-- C8 counterexample: the claim says `flush` is a no-op when the buffer
is unchanged.  Here the session buffer equals the stored object (opened
and never written — not dirty in any sense), yet `flush` uploads it
anyway: the class has no dirty flag. -/
theorem C8_counterexample_always_uploads :
    c8State.tempFiles "/f" = c8State.bucket (strTail "/f") ∧
    c8State.uploads = [] ∧
    (flush_ c8State "/f").1.uploads = [(strTail "/f", [1, 2], mimetypesGuessType "/f")] :=
  ⟨rfl, rfl, rfl⟩

/-- C8 amended: whenever the object exists and a session buffer exists,
`flush` unconditionally uploads the full buffer under the path, tagged
with the whole `mimetypes.guess_type(path)` result, regardless of
whether the buffer changed since open. -/
theorem C8_amended_flush (st : FSState) (p : String) (c buf : List Nat)
    (hb : st.bucket (strTail p) = some c) (ht : st.tempFiles p = some buf) :
    flush_ st p =
      ({ st with uploads := st.uploads ++ [(strTail p, buf, mimetypesGuessType p)] },
        none) := by
  simp only [flush_, hb, ht]

/-- Witness for the C8 amended claim at the concrete clean session. -/
theorem C8_amended_flush_witness :
    (c8State.bucket (strTail "/f") = some [1, 2] ∧ c8State.tempFiles "/f" = some [1, 2]) ∧
    flush_ c8State "/f" =
      ({ c8State with
          uploads := c8State.uploads ++ [(strTail "/f", [1, 2], mimetypesGuessType "/f")] },
        none) :=
  ⟨⟨rfl, rfl⟩, C8_amended_flush c8State "/f" [1, 2] [1, 2] rfl rfl⟩

/-- C9: the claim says `read` on a path with no session re-fetches the
object and serves the read.  The code is wrong against the intended
lazy recovery the spec describes: `if not self.temp_files[path]` (line
220) subscripts the dict, so with no session entry it raises `KeyError`
before any re-fetch — even though the object exists in the bucket.
(The re-fetch only happens for an existing session whose buffer is
falsy, i.e. empty.) -/
theorem C9_read_keyerror_without_session :
    c9State.bucket (strTail "/f") = some [1, 2, 3, 4] ∧
    c9State.tempFiles "/f" = none ∧
    read_ c9State "/f" 4 0 = (c9State, .error PyError.keyError) :=
  ⟨rfl, rfl, rfl⟩

/-- C10: whenever `getattr` succeeds, the returned record has
`st_gid = st_uid`, both equal to the process uid captured at startup
(`os.getuid()`; no group id is ever looked up — the model takes only a
uid parameter), and `st_dev = st_ino = 0`. -/
theorem C10_getattr_owner_fields (rs : Store) (baseKey : String) (uid : Int) (p : String)
    (out : List (String × PyVal)) (h : getattr_ rs baseKey uid p = .ok out) :
    alookup out "st_gid" = alookup out "st_uid" ∧
    alookup out "st_uid" = some (.i uid) ∧
    alookup out "st_dev" = some (.i 0) ∧
    alookup out "st_ino" = some (.i 0) := by
  obtain ⟨a0, hpp⟩ := getattr_ok_postProcess rs baseKey uid p out h
  obtain ⟨h1, h2, h3, h4⟩ := postProcess_owner uid a0 out hpp
  refine ⟨?_, h1, h3, h4⟩
  rw [h1, h2]

/-- Witness for C10 at a concrete file record and uid 7. -/
theorem C10_getattr_owner_fields_witness :
    getattr_ c10Store "" 7 "/f" = .ok (okOr [] (getattr_ c10Store "" 7 "/f")) ∧
    (alookup (okOr [] (getattr_ c10Store "" 7 "/f")) "st_gid"
        = alookup (okOr [] (getattr_ c10Store "" 7 "/f")) "st_uid" ∧
      alookup (okOr [] (getattr_ c10Store "" 7 "/f")) "st_uid" = some (.i 7) ∧
      alookup (okOr [] (getattr_ c10Store "" 7 "/f")) "st_dev" = some (.i 0) ∧
      alookup (okOr [] (getattr_ c10Store "" 7 "/f")) "st_ino" = some (.i 0)) :=
  ⟨rfl, C10_getattr_owner_fields c10Store "" 7 "/f" _ rfl⟩

end Festivus
